import Mathlib

/-! GPU radix sort (`src/main_radix.cpp`): host orchestration and its stages.

The host program sorts `n` 32-bit unsigned keys by 16 passes over 2-bit digits.
Each pass runs the `local_sum` kernel (per-partition histogram and local ranks),
merges the histogram table on the host, runs the `radix` kernel (scatter) and
swaps the two key buffers.

Machine integers are natural numbers reduced modulo `2 ^ 32` wherever the host
code computes with `unsigned int`.  Buffers are lists.  Code that can fail
(division by zero, an out-of-range vector access, a loop that does not end)
returns `Option`.

The two kernels are compiled from `cl/radix.cl` (included as `cl/radix_cl.h`);
their text is not in `main_radix.cpp`, so they are modelled from the
specification and marked as such, as are the `libgpu` buffer primitives.
-/

namespace RadixSort

/-! ## Host constants (`main_radix.cpp:27-28`, `:92`) -/

/-- The digit width: `constexpr unsigned int DIGITS_PER_STEP = 2;` -/
def DIGITS_PER_STEP : Nat := 2

/-- The number of digit values, `VALUES_PER_DIGIT = (1 << DIGITS_PER_STEP)`, as a
function of the digit width.  The shift is on `int`: for a width of 32 or more
it is no constant expression and the constant does not exist (see
`constantsDefined`); the value given here for such a width is never used by a
run. -/
def VALUES_PER_DIGIT (w : Nat) : Nat := (1 <<< w) % 2 ^ 32

/-- The digit mask,
`initialMask = 0xFFFFFFFF >> (sizeof(unsigned int) * 8 - DIGITS_PER_STEP)`,
as a function of the digit width. -/
def initialMask (w : Nat) : Nat := 0xFFFFFFFF >>> (4 * 8 - w)

/-- Whether the two `constexpr` constants of the program exist for the digit
width `w`.  `VALUES_PER_DIGIT` shifts the `int` 1 by `w` (`main_radix.cpp:28`)
and `initialMask` shifts `0xFFFFFFFF` by `32 - w` (`:92`); a shift by 32 or
more is no constant expression, so the initialisers are accepted exactly for
the widths 1 to 31, and for every other width there is no program to run. -/
def constantsDefined (w : Nat) : Bool := decide (1 ≤ w ∧ w ≤ 31)

/-- The number of benchmark iterations: `int benchmarkingIters = 10;` -/
def benchmarkingIters : Nat := 10

/-! ## Launch geometry (`main_radix.cpp:79-81`) -/

/-- The number of partitions,
`groups_count = (n + workGroupSize - 1) / workGroupSize`, in `unsigned int`
arithmetic; the division by a zero `workGroupSize` has no result. -/
def groups_count (n workGroupSize : Nat) : Option Nat :=
  if workGroupSize = 0 then none
  else some ((n + workGroupSize + (2 ^ 32 - 1)) % 2 ^ 32 / workGroupSize)

/-- The number of launched units: `global_work_size = groups_count * workGroupSize`. -/
def global_work_size (groups workGroupSize : Nat) : Nat :=
  (groups * workGroupSize) % 2 ^ 32

/-- The size of the histogram table:
`sums_size = VALUES_PER_DIGIT * (groups_count + 1)`. -/
def sums_size (w groups : Nat) : Nat :=
  (VALUES_PER_DIGIT w * ((groups + 1) % 2 ^ 32)) % 2 ^ 32

/-! ## Host merge of the histogram table (`main_radix.cpp:111-113`) -/

/-- The body of the merge loop run `k` more times from index `i`:
`sums[i] += sums[i - VALUES_PER_DIGIT]`, then `++i`.  Both vector accesses are
checked; the sum is an `unsigned int`. -/
def mergeLoop (V : Nat) : Nat → Nat → List Nat → Option (List Nat)
  | 0, _, sums => some sums
  | k + 1, i, sums =>
    match sums[i]?, sums[i - V]? with
    | some a, some b => mergeLoop V k (i + 1) (sums.set i ((a + b) % 2 ^ 32))
    | _, _ => none

/-- The host merge,
`for (unsigned int i = VALUES_PER_DIGIT; i < sums_size; ++i) sums[i] += sums[i - VALUES_PER_DIGIT];`
The loop runs `sums_size - VALUES_PER_DIGIT` times (not at all when
`sums_size <= VALUES_PER_DIGIT`). -/
def hostMerge (V size : Nat) (sums : List Nat) : Option (List Nat) :=
  mergeLoop V (size - V) V sums

/-! ## Device-memory primitives (`libgpu`, used at `main_radix.cpp:96-130`) -/

/-- Modelled from the spec: `writeN` of the device-memory interface ("upload a
host sequence into it"): the first `n` elements of the buffer are replaced by
the first `n` elements of the host data. -/
def writeN (buffer data : List Nat) (n : Nat) : List Nat :=
  data.take n ++ buffer.drop n

/-- Modelled from the spec: `readN` of the device-memory interface ("download
it back"): the first `n` elements of the host vector are replaced by the
first `n` elements of the buffer. -/
def readN (buffer host : List Nat) (n : Nat) : List Nat :=
  buffer.take n ++ host.drop n

/-! ## The kernels -/

/-- Modelled from the spec: the Digit Codec of `cl/radix.cl` (section 4.1,
"extracts bits `[p*w, p*w+w)` of `key`, right-shifted to `[0, 2^w)`"), from the
mask and shift the host hands to both kernels. -/
def digit (mask step key : Nat) : Nat := (key >>> step) &&& mask

/-- Modelled from the spec: the local rank of section 4.2 ("count of elements
before it in partition order sharing its digit value"); element `i` lies in
partition `i / workGroupSize`, which starts at index `i / workGroupSize * workGroupSize`. -/
def localRank (mask step workGroupSize : Nat) (keys : List Nat) (i : Nat) : Nat :=
  ((keys.take i).drop (i / workGroupSize * workGroupSize)).countP fun k =>
    digit mask step k = digit mask step (keys.getD i 0)

/-- Modelled from the spec: partition `g` of the key array (section 3, "a
contiguous, fixed-size slice of the key array; the last partition may be
short"). -/
def partitionOf (workGroupSize : Nat) (keys : List Nat) (g : Nat) : List Nat :=
  (keys.drop (g * workGroupSize)).take workGroupSize

/-- Modelled from the spec: the histogram row of partition `g` (section 4.2,
"count of each digit value within that partition"); a short last partition
counts its actual elements only. -/
def localCount (mask step workGroupSize : Nat) (keys : List Nat) (g v : Nat) : Nat :=
  (partitionOf workGroupSize keys g).countP fun k => digit mask step k = v

/-- Modelled from the spec: the `local_sum` kernel of `cl/radix.cl` (Local
Histogram Stage, section 4.2), launched as
`local_sum.exec(WorkSize(workGroupSize, global_work_size), as_gpu, indexes, sums_gpu, mask, step, n)`.
It returns the new contents of `indexes` and of `sums_gpu`.  Every element
`i < n` gets its local rank.  Partition `g` overwrites its own row of the
table and no other; with the host merge being a running sum that keeps row 0
and the table having `groups_count + 1` rows, the row of partition `g` is row
`g + 1` (the entries `(g + 1) * V + v`), so that after the merge row `p` holds
the totals of partitions `0..p-1` and row `groups_count` the totals of all. -/
def local_sum (V workGroupSize globalWorkSize : Nat) (as indexes sums : List Nat)
    (mask step n : Nat) : List Nat × List Nat :=
  let keys := as.take n
  let groups := globalWorkSize / workGroupSize
  ((List.range indexes.length).map fun i =>
      if i < keys.length then localRank mask step workGroupSize keys i else indexes.getD i 0,
   (List.range sums.length).map fun j =>
      if V ≤ j ∧ j / V ≤ groups then localCount mask step workGroupSize keys (j / V - 1) (j % V)
      else sums.getD j 0)

/-- Modelled from the spec: the global digit offset of section 2 ("global
digit offset + cross-partition offset + intra-partition rank"), the base
offset of the glossary: the totals of all smaller digit values, read from the
last row of the merged table. -/
def baseOffset (V groups : Nat) (sums : List Nat) (v : Nat) : Nat :=
  ((List.range v).map fun u => sums.getD (groups * V + u) 0).sum

/-- Modelled from the spec: the destination index of element `i` in the
Scatter Stage (section 2): global digit offset + cross-partition offset
(the merged entry of the element's digit value and partition) + local rank. -/
def destination (V workGroupSize groups : Nat) (keys indexes sums : List Nat)
    (mask step i : Nat) : Nat :=
  baseOffset V groups sums (digit mask step (keys.getD i 0))
    + sums.getD (i / workGroupSize * V + digit mask step (keys.getD i 0)) 0
    + indexes.getD i 0

/-- Modelled from the spec: the `radix` kernel of `cl/radix.cl` (Scatter Stage,
section 4.4), launched as
`radix.exec(WorkSize(workGroupSize, global_work_size), as_gpu, as_buffer, indexes, sums_gpu, mask, step, n)`.
It returns the new contents of the output buffer: every element `i < n` of
the input is written to its destination index; the input is not written. -/
def radix (V workGroupSize globalWorkSize : Nat) (as as_buffer indexes sums : List Nat)
    (mask step n : Nat) : List Nat :=
  let keys := as.take n
  (List.range keys.length).foldl
    (fun out i =>
      out.set (destination V workGroupSize (globalWorkSize / workGroupSize) keys indexes sums mask step i)
        (keys.getD i 0))
    as_buffer

/-! ## Host state -/

/-- The two device allocations that hold keys: the one made for `as_gpu`
(`main_radix.cpp:60-61`) and the one made for `as_buffer` (`:89-90`). -/
inductive Buf where
  | first
  | second
  deriving DecidableEq, Repr

/-- A kernel launch, recorded with the scalar arguments handed to it and with
the contents of the table `sums_gpu` it is handed. -/
inductive Call where
  | local_sum (table : List Nat) (mask step n : Nat)
  | radix (table : List Nat) (mask step n : Nat)
  deriving DecidableEq, Repr

/-- The state of the host program inside the benchmark block: the contents of
the device allocations, the handles `as_gpu` and `as_buffer`, the host vector
`sums`, the loop variable `step`, and the record of the kernel launches. -/
structure State where
  first : List Nat
  second : List Nat
  indexes : List Nat
  sums_gpu : List Nat
  as_gpu : Buf
  as_buffer : Buf
  sums : List Nat
  step : Nat
  calls : List Call
  deriving DecidableEq, Repr

/-- The contents of the allocation a handle designates. -/
def State.mem (st : State) : Buf → List Nat
  | .first => st.first
  | .second => st.second

/-- Replace the contents of the allocation a handle designates. -/
def State.store (st : State) : Buf → List Nat → State
  | .first, data => { st with first := data }
  | .second, data => { st with second := data }

/-- One turn of the digit loop (`main_radix.cpp:104-122`): histogram stage,
read-back, host merge, re-upload, scatter stage, swap of the handles,
`step += DIGITS_PER_STEP`. -/
def pass (w workGroupSize n groups : Nat) (st : State) : Option State :=
  let V := VALUES_PER_DIGIT w
  let size := sums_size w groups
  let gws := global_work_size groups workGroupSize
  let hist := local_sum V workGroupSize gws (st.mem st.as_gpu) st.indexes st.sums_gpu
    (initialMask w) st.step n
  match hostMerge V size (readN hist.2 st.sums size) with
  | none => none
  | some merged =>
    let table := writeN hist.2 merged size
    let out := radix V workGroupSize gws (st.mem st.as_gpu) (st.mem st.as_buffer) hist.1 table
      (initialMask w) st.step n
    some { st.store st.as_buffer out with
      indexes := hist.1
      sums_gpu := table
      as_gpu := st.as_buffer
      as_buffer := st.as_gpu
      sums := merged
      step := (st.step + w) % 2 ^ 32
      calls := st.calls ++ [Call.local_sum st.sums_gpu (initialMask w) st.step n,
                            Call.radix table (initialMask w) st.step n] }

/-- The digit loop
`for (unsigned int digit = 0; digit < 32; digit += DIGITS_PER_STEP) { ... }`
(`main_radix.cpp:103-123`) with a bound on the number of turns; `none` when the
bound is used up before `digit` reaches 32 or when a turn fails. -/
def digitLoop (w workGroupSize n groups : Nat) : Nat → Nat → State → Option State
  | 0, digit, st => if digit < 32 then none else some st
  | fuel + 1, digit, st =>
    if digit < 32 then
      match pass w workGroupSize n groups st with
      | none => none
      | some st1 => digitLoop w workGroupSize n groups fuel ((digit + w) % 2 ^ 32) st1
    else some st

/-- The state after the uploads that open a benchmark iteration
(`main_radix.cpp:96-98`, `:102`): `as_gpu.writeN(as.data(), n)`, a vector
`sums` of `sums_size` zeros, `sums_gpu.writeN(sums.data(), sums_size)`,
`step = 0`. -/
def uploaded (w n groups : Nat) (as : List Nat) (st : State) : State :=
  { st.store st.as_gpu (writeN (st.mem st.as_gpu) as n) with
    sums := List.replicate (sums_size w groups) 0
    sums_gpu := writeN st.sums_gpu (List.replicate (sums_size w groups) 0) (sums_size w groups)
    step := 0 }

/-- One benchmark iteration (`main_radix.cpp:96-123`): the uploads, then the
digit loop.  It has a result only for a digit width for which the constants of
the program exist; the loop then ends within 32 turns. -/
def sortOnce (w workGroupSize n groups : Nat) (as : List Nat) (st : State) : Option State :=
  if constantsDefined w then digitLoop w workGroupSize n groups 32 0 (uploaded w n groups as st)
  else none

/-- The benchmark loop `for (int iter = 0; iter < benchmarkingIters; ++iter) { ... }`
(`main_radix.cpp:95-126`), `iters` turns. -/
def benchLoop (w workGroupSize n groups : Nat) (as : List Nat) : Nat → State → Option State
  | 0, st => some st
  | iters + 1, st =>
    match sortOnce w workGroupSize n groups as st with
    | none => none
    | some st1 => benchLoop w workGroupSize n groups as iters st1

/-- The state when the benchmark loop is entered: the four device buffers
have been sized (`resizeN`) and hold whatever the allocations held. -/
def initState (keys0 keys1 indexes0 sums0 : List Nat) : State :=
  { first := keys0, second := keys1, indexes := indexes0, sums_gpu := sums0,
    as_gpu := Buf.first, as_buffer := Buf.second, sums := [], step := 0, calls := [] }

/-- The GPU part of `main` (`main_radix.cpp:60-131`) up to the state after the
benchmark loop, for digit width `w`, partition size `workGroupSize` and `n`
keys `as`; the last four arguments are the initial contents of the device
buffers `as_gpu`, `as_buffer`, `indexes` and `sums_gpu`. -/
def gpuRun (w workGroupSize n : Nat) (as keys0 keys1 indexes0 sums0 : List Nat) : Option State :=
  match groups_count n workGroupSize with
  | none => none
  | some groups =>
    benchLoop w workGroupSize n groups as benchmarkingIters (initState keys0 keys1 indexes0 sums0)

/-- The array `as` after `as_gpu.readN(as.data(), n)` (`main_radix.cpp:130`). -/
def gpuSort (w workGroupSize n : Nat) (as keys0 keys1 indexes0 sums0 : List Nat) :
    Option (List Nat) :=
  (gpuRun w workGroupSize n as keys0 keys1 indexes0 sums0).map fun st =>
    readN (st.mem st.as_gpu) as n

/-- The `k`-fold composition of `pass`. -/
def passes (w workGroupSize n groups : Nat) : Nat → State → Option State
  | 0, st => some st
  | k + 1, st => (pass w workGroupSize n groups st).bind (passes w workGroupSize n groups k)

/-- A state as the buffers are sized by `resizeN` (`main_radix.cpp:61`, `:84-90`):
the two handles designate different allocations, both hold `n` keys,
`indexes` holds `n` entries, the table on the device holds `sums_size`
entries, and row 0 of the table is zero. -/
def Sized (w n groups : Nat) (st : State) : Prop :=
  st.as_gpu ≠ st.as_buffer ∧ st.first.length = n ∧ st.second.length = n ∧
  st.indexes.length = n ∧ st.sums_gpu.length = sums_size w groups ∧
  st.sums.length ≤ sums_size w groups ∧
  ∀ v, v < VALUES_PER_DIGIT w → st.sums_gpu.getD v 0 = 0

/-! ## Reference behaviour of one pass -/

/-- The keys with digit value below `v`, grouped by digit value in ascending
order, each group in the order of the input: the result a stable counting
sort on the digit `f` has to produce (with `v` the number of digit values). -/
def buckets (f : Nat → Nat) (keys : List Nat) : Nat → List Nat
  | 0 => []
  | v + 1 => buckets f keys v ++ keys.filter fun k => f k = v

/-- Modelled from the spec: the count of digit value `v` in partition `p`, read
from a table the histogram stage has filled; `local_sum` keeps partition `p`
in row `p + 1`. -/
def partitionCount (V : Nat) (sums : List Nat) (p v : Nat) : Nat :=
  sums.getD (V * (p + 1) + v) 0

/-- The entry of digit value `v` and partition `p` after the Merge in the
words of section 4.3 of the specification: the counts of `v` in the partitions
`0..p-1`, plus the base offset of `v`, the counts of all smaller digit values
in all `groups` partitions. -/
def specMergedEntry (count : Nat → Nat → Nat) (groups p v : Nat) : Nat :=
  ((List.range p).map fun q => count q v).sum
    + ((List.range v).map fun u => ((List.range groups).map fun q => count q u).sum).sum

/-- The reference behaviour of `k` consecutive passes, the first of them pass
`p`: pass `p` orders the keys into the buckets of the digit at shift `p * w`. -/
def lsdFrom (w : Nat) : Nat → Nat → List Nat → List Nat
  | _, 0, keys => keys
  | p, k + 1, keys =>
    lsdFrom w (p + 1) k (buckets (digit (initialMask w) (p * w)) keys (VALUES_PER_DIGIT w))

/-! # Theorems -/

/-! ## The digit mask -/


theorem initialMask_eq (w : Nat) (h1 : 1 ≤ w) (h2 : w ≤ 32) : initialMask w = 2 ^ w - 1 := by
  unfold initialMask
  interval_cases w <;> rfl

theorem VALUES_PER_DIGIT_eq (w : Nat) (h2 : w ≤ 31) : VALUES_PER_DIGIT w = 2 ^ w := by
  unfold VALUES_PER_DIGIT
  rw [Nat.shiftLeft_eq, one_mul]
  apply Nat.mod_eq_of_lt
  exact Nat.pow_lt_pow_right (by norm_num) (by omega)

theorem digit_eq (w step key : Nat) (h1 : 1 ≤ w) (h2 : w ≤ 32) :
    digit (initialMask w) step key = key / 2 ^ step % 2 ^ w := by
  unfold digit
  rw [initialMask_eq w h1 h2, Nat.and_pow_two_sub_one_eq_mod, Nat.shiftRight_eq_div_pow]

/-- C4: for a digit width `w` from 1 to 31 the host mask `0xFFFFFFFF >> (32 - w)`
is `2 ^ w - 1 = VALUES_PER_DIGIT - 1` (3 for the width 2 of the program), and
for every 32-bit key and pass `p` with `p * w < 32` the digit
`(key >> (p * w)) & mask` is `key / 2 ^ (p * w) % 2 ^ w`, is below `2 ^ w`, and
its bit `j < w` is bit `p * w + j` of the key. -/
theorem C4_mask_digit (w : Nat) (h1 : 1 ≤ w) (h2 : w ≤ 31) :
    initialMask w = 2 ^ w - 1 ∧ initialMask w = VALUES_PER_DIGIT w - 1 ∧
    (DIGITS_PER_STEP = 2 ∧ initialMask DIGITS_PER_STEP = 3) ∧
    ∀ key p, key < 2 ^ 32 → p * w < 32 →
      digit (initialMask w) (p * w) key = key / 2 ^ (p * w) % 2 ^ w ∧
      digit (initialMask w) (p * w) key < 2 ^ w ∧
      ∀ j, j < w → (digit (initialMask w) (p * w) key).testBit j = key.testBit (p * w + j) := by
  refine ⟨initialMask_eq w h1 (by omega), ?_, ⟨rfl, rfl⟩, ?_⟩
  · rw [initialMask_eq w h1 (by omega), VALUES_PER_DIGIT_eq w h2]
  · intro key p _ _
    rw [digit_eq w _ key h1 (by omega)]
    refine ⟨rfl, Nat.mod_lt _ (by positivity), ?_⟩
    intro j hj
    rw [Nat.testBit_mod_two_pow, ← Nat.shiftRight_eq_div_pow, Nat.testBit_shiftRight]
    simp [hj]

/-- C4 at the digit width 2 of the program. -/
theorem C4_mask_digit_witness :
    initialMask 2 = 2 ^ 2 - 1 ∧ initialMask 2 = VALUES_PER_DIGIT 2 - 1 ∧
    (DIGITS_PER_STEP = 2 ∧ initialMask DIGITS_PER_STEP = 3) ∧
    ∀ key p, key < 2 ^ 32 → p * 2 < 32 →
      digit (initialMask 2) (p * 2) key = key / 2 ^ (p * 2) % 2 ^ 2 ∧
      digit (initialMask 2) (p * 2) key < 2 ^ 2 ∧
      ∀ j, j < 2 → (digit (initialMask 2) (p * 2) key).testBit j = key.testBit (p * 2 + j) :=
  C4_mask_digit 2 (by decide) (by decide)

/-! ## Launch geometry -/

theorem groups_count_eq (n s : Nat) (hs : 1 ≤ s) (h : n + s - 1 < 2 ^ 32) :
    groups_count n s = some ((n + s - 1) / s) := by
  have e : (n + s + (2 ^ 32 - 1)) % 2 ^ 32 = n + s - 1 := by omega
  simp only [groups_count, e]
  rw [if_neg (by omega)]

theorem ceil_div_bounds (n s : Nat) (hs : 1 ≤ s) :
    n ≤ (n + s - 1) / s * s ∧ (n + s - 1) / s * s < n + s := by
  have h1 := Nat.div_add_mod (n + s - 1) s
  have h2 := Nat.mod_lt (n + s - 1) (show s > 0 by omega)
  rw [Nat.mul_comm] at h1
  constructor <;> omega

/-- C10: for `n >= 1` keys and a partition size `s >= 1` with `n + s - 1 < 2 ^ 32`,
`groups_count` is `(n + s - 1) / s`, the ceiling of `n / s`; `global_work_size`
lies in `[n, n + s)`; every partition but the last holds `s` keys, the last
one holds `n - (groups_count - 1) * s` keys, between 1 and `s`; fewer than `s`
launched units lie past `n`. -/
theorem C10_launch_geometry (n s : Nat) (hn : 1 ≤ n) (hs : 1 ≤ s) (h : n + s - 1 < 2 ^ 32) :
    ∃ groups, groups_count n s = some groups ∧ groups = (n + s - 1) / s ∧
      groups = ⌈(n : ℚ) / (s : ℚ)⌉₊ ∧
      n ≤ global_work_size groups s ∧ global_work_size groups s < n + s ∧
      (∀ keys : List Nat, keys.length = n →
        (∀ g, g + 1 < groups → (partitionOf s keys g).length = s) ∧
        (partitionOf s keys (groups - 1)).length = n - (groups - 1) * s) ∧
      1 ≤ n - (groups - 1) * s ∧ n - (groups - 1) * s ≤ s ∧
      global_work_size groups s - n < s := by
  obtain ⟨hlo, hhi⟩ := ceil_div_bounds n s hs
  have hg : 1 ≤ (n + s - 1) / s := by
    rcases Nat.eq_zero_or_pos ((n + s - 1) / s) with h0 | h0
    · rw [h0] at hlo; omega
    · exact h0
  have hsub : ((n + s - 1) / s - 1) * s = (n + s - 1) / s * s - s := by
    rw [Nat.sub_mul, one_mul]
  have hgws : global_work_size ((n + s - 1) / s) s = (n + s - 1) / s * s := by
    unfold global_work_size
    exact Nat.mod_eq_of_lt (by omega)
  refine ⟨(n + s - 1) / s, groups_count_eq n s hs h, rfl, ?_, ?_, ?_, ?_, ?_, ?_, ?_⟩
  · symm
    rw [Nat.ceil_eq_iff (by omega)]
    have hsq : (0 : ℚ) < (s : ℚ) := by exact_mod_cast hs
    constructor
    · rw [lt_div_iff₀ hsq]
      have : ((n + s - 1) / s - 1) * s < n := by omega
      exact_mod_cast this
    · rw [div_le_iff₀ hsq]
      exact_mod_cast hlo
  · rw [hgws]; exact hlo
  · rw [hgws]; exact hhi
  · intro keys hk
    constructor
    · intro g hg2
      have : (g + 1) * s ≤ ((n + s - 1) / s - 1) * s := Nat.mul_le_mul_right s (by omega)
      have e : (g + 1) * s = g * s + s := by rw [Nat.add_mul, one_mul]
      simp only [partitionOf, List.length_take, List.length_drop, hk]
      omega
    · simp only [partitionOf, List.length_take, List.length_drop, hk]
      omega
  · omega
  · omega
  · rw [hgws]; omega

/-- C10 at 5 keys in partitions of 2. -/
theorem C10_launch_geometry_witness :
    ∃ groups, groups_count 5 2 = some groups ∧ groups = (5 + 2 - 1) / 2 ∧
      groups = ⌈((5 : Nat) : ℚ) / ((2 : Nat) : ℚ)⌉₊ ∧
      5 ≤ global_work_size groups 2 ∧ global_work_size groups 2 < 5 + 2 ∧
      (∀ keys : List Nat, keys.length = 5 →
        (∀ g, g + 1 < groups → (partitionOf 2 keys g).length = 2) ∧
        (partitionOf 2 keys (groups - 1)).length = 5 - (groups - 1) * 2) ∧
      1 ≤ 5 - (groups - 1) * 2 ∧ 5 - (groups - 1) * 2 ≤ 2 ∧
      global_work_size groups 2 - 5 < 2 :=
  C10_launch_geometry 5 2 (by decide) (by decide) (by decide)

/-! ## The host merge -/

theorem getD_set_ne (l : List Nat) (i j a : Nat) (h : i ≠ j) :
    (l.set i a).getD j 0 = l.getD j 0 := by
  simp [List.getD_eq_getElem?_getD, List.getElem?_set_ne h]

theorem getD_set_eq (l : List Nat) (i a : Nat) (h : i < l.length) :
    (l.set i a).getD i 0 = a := by
  simp [List.getD_eq_getElem?_getD, List.getElem?_set_self, h]

/-- The merge loop from index `i` for `k` turns stays in range, keeps the
length, and leaves a table that satisfies the recurrence
`out[j] = (sums[j] + out[j - V]) % 2 ^ 32` on the indices it visits. -/
theorem mergeLoop_spec (V : Nat) (hV : 0 < V) :
    ∀ (k i : Nat) (sums : List Nat), V ≤ i → i + k ≤ sums.length →
      ∃ out, mergeLoop V k i sums = some out ∧ out.length = sums.length ∧
        (∀ j, j < i → out.getD j 0 = sums.getD j 0) ∧
        (∀ j, i + k ≤ j → out.getD j 0 = sums.getD j 0) ∧
        (∀ j, i ≤ j → j < i + k →
          out.getD j 0 = (sums.getD j 0 + out.getD (j - V) 0) % 2 ^ 32) := by
  intro k
  induction k with
  | zero =>
    intro i sums _ _
    exact ⟨sums, rfl, rfl, fun _ _ => rfl, fun _ _ => rfl, fun j h1 h2 => by omega⟩
  | succ k ih =>
    intro i sums hi hlen
    have h1 : i < sums.length := by omega
    have h2 : i - V < sums.length := by omega
    obtain ⟨out, ho, hl, hlow, hhigh, hrec⟩ :=
      ih (i + 1) (sums.set i ((sums[i] + sums[i - V]) % 2 ^ 32)) (by omega)
        (by rw [List.length_set]; omega)
    refine ⟨out, ?_, ?_, ?_, ?_, ?_⟩
    · simp only [mergeLoop, List.getElem?_eq_getElem h1, List.getElem?_eq_getElem h2]
      exact ho
    · rw [hl, List.length_set]
    · intro j hj
      rw [hlow j (by omega), getD_set_ne _ _ _ _ (by omega)]
    · intro j hj
      rw [hhigh j (by omega), getD_set_ne _ _ _ _ (by omega)]
    · intro j hj1 hj2
      rcases Nat.eq_or_lt_of_le hj1 with e | hlt
      · subst e
        rw [hlow i (by omega), getD_set_eq _ _ _ h1, hlow (i - V) (by omega),
          getD_set_ne _ _ _ _ (by omega)]
        simp [List.getD_eq_getElem?_getD, List.getElem?_eq_getElem h1,
          List.getElem?_eq_getElem h2]
      · rw [hrec j (by omega) (by omega), getD_set_ne _ _ _ _ (by omega)]

/-- The sum of the entries of digit value `v` in rows `0..r` of a table. -/
theorem columnSum_succ (V v r : Nat) (sums : List Nat) :
    ((List.range (r + 2)).map fun q => sums.getD (V * q + v) 0).sum =
      ((List.range (r + 1)).map fun q => sums.getD (V * q + v) 0).sum
        + sums.getD (V * (r + 1) + v) 0 := by
  rw [List.range_succ, List.map_append, List.sum_append]
  simp

/-- The host merge on a table of `rows + 1` rows of `V` entries: it stays in
range, keeps the length and row 0, and turns every column into its running
sum modulo `2 ^ 32`. -/
theorem hostMerge_spec (V rows : Nat) (hV : 0 < V) (sums : List Nat)
    (hlen : sums.length = V * (rows + 1)) (h32 : ∀ x ∈ sums, x < 2 ^ 32) :
    ∃ out, hostMerge V sums.length sums = some out ∧ out.length = sums.length ∧
      (∀ v, v < V → out.getD v 0 = sums.getD v 0) ∧
      (∀ r v, r ≤ rows → v < V →
        out.getD (V * r + v) 0 =
          ((List.range (r + 1)).map fun q => sums.getD (V * q + v) 0).sum % 2 ^ 32) := by
  have hle : V ≤ sums.length := by
    rw [hlen]; exact Nat.le_mul_of_pos_right V (by omega)
  obtain ⟨out, ho, hl, hlow, _, hrec⟩ :=
    mergeLoop_spec V hV (sums.length - V) V sums (le_refl V) (by omega)
  refine ⟨out, ho, hl, hlow, ?_⟩
  intro r
  induction r with
  | zero =>
    intro v _ hv
    have hv2 : v < sums.length := by omega
    have := h32 sums[v] (List.getElem_mem hv2)
    have e1 : (List.range (0 + 1)).map (fun q => sums.getD (V * q + v) 0) = [sums.getD v 0] := by
      simp [List.range_succ]
    rw [e1, Nat.mul_zero, Nat.zero_add, hlow v hv, List.sum_singleton,
      List.getD_eq_getElem?_getD, List.getElem?_eq_getElem hv2]
    exact (Nat.mod_eq_of_lt this).symm
  | succ r ih =>
    intro v hr hv
    have hb : V * (r + 1) + v < V * (rows + 1) := by
      have : V * (r + 1) + V ≤ V * (rows + 1) := by
        rw [← Nat.mul_succ]; exact Nat.mul_le_mul_left V (by omega)
      omega
    have hge : V ≤ V * (r + 1) + v := by
      have : V * 1 ≤ V * (r + 1) := Nat.mul_le_mul_left V (by omega)
      omega
    have hsub : V * (r + 1) + v - V = V * r + v := by
      rw [Nat.mul_succ]; omega
    rw [hrec _ hge (by omega), hsub, ih v (by omega) hv, columnSum_succ]
    omega

/-- C9: on a table of length `4 * (groups_count + 1)` the host merge loop
(`for i from 4: sums[i] += sums[i - 4]`) accesses only indices in range (it
returns a table), keeps the length, leaves the first 4 entries unchanged and
makes the entry at `4 * r + v` the sum modulo `2 ^ 32` of the original entries
at `4 * q + v`, `q <= r`: a running sum along rows for each digit value. -/
theorem C9_host_merge_running_sum (groups : Nat) (sums : List Nat)
    (hlen : sums.length = VALUES_PER_DIGIT DIGITS_PER_STEP * (groups + 1))
    (h32 : ∀ x ∈ sums, x < 2 ^ 32) :
    VALUES_PER_DIGIT DIGITS_PER_STEP = 4 ∧
    ∃ out, hostMerge (VALUES_PER_DIGIT DIGITS_PER_STEP) sums.length sums = some out ∧
      out.length = sums.length ∧
      (∀ v, v < 4 → out.getD v 0 = sums.getD v 0) ∧
      (∀ r v, r ≤ groups → v < 4 →
        out.getD (4 * r + v) 0 =
          ((List.range (r + 1)).map fun q => sums.getD (4 * q + v) 0).sum % 2 ^ 32) := by
  have e : VALUES_PER_DIGIT DIGITS_PER_STEP = 4 := rfl
  rw [e] at hlen ⊢
  exact ⟨rfl, hostMerge_spec 4 groups (by omega) sums hlen h32⟩

/-- C9 on a table of two rows. -/
theorem C9_host_merge_running_sum_witness :
    VALUES_PER_DIGIT DIGITS_PER_STEP = 4 ∧
    ∃ out, hostMerge (VALUES_PER_DIGIT DIGITS_PER_STEP) [0, 0, 0, 0, 1, 2, 0, 1].length
        [0, 0, 0, 0, 1, 2, 0, 1] = some out ∧
      out.length = [0, 0, 0, 0, 1, 2, 0, 1].length ∧
      (∀ v, v < 4 → out.getD v 0 = [0, 0, 0, 0, 1, 2, 0, 1].getD v 0) ∧
      (∀ r v, r ≤ 1 → v < 4 →
        out.getD (4 * r + v) 0 =
          ((List.range (r + 1)).map fun q => [0, 0, 0, 0, 1, 2, 0, 1].getD (4 * q + v) 0).sum
            % 2 ^ 32) :=
  C9_host_merge_running_sum 1 [0, 0, 0, 0, 1, 2, 0, 1] (by decide) (by decide)

theorem list_sum_range_map (f : Nat → Nat) (m : Nat) :
    ((List.range m).map f).sum = ∑ i in Finset.range m, f i := by
  induction m with
  | zero => simp
  | succ m ih => rw [List.range_succ, List.map_append, List.sum_append, ih, Finset.sum_range_succ]; simp

theorem list_sum_eq_range (l : List Nat) :
    l.sum = ∑ i in Finset.range l.length, l.getD i 0 := by
  rw [← list_sum_range_map]
  congr 1
  apply List.ext_getElem
  · simp
  · intro i h1 h2
    simp [List.getD_eq_getElem?_getD, List.getElem?_eq_getElem h1]

theorem sum_range_table (f : Nat → Nat) (V rows : Nat) :
    ∑ i in Finset.range (V * rows), f i =
      ∑ v in Finset.range V, ∑ q in Finset.range rows, f (V * q + v) := by
  rw [Finset.sum_comm]
  induction rows with
  | zero => simp
  | succ r ih => rw [Nat.mul_succ, Finset.sum_range_add, ih, Finset.sum_range_succ]

theorem le_list_sum (l : List Nat) (x : Nat) (h : x ∈ l) : x ≤ l.sum := by
  induction l with
  | nil => cases h
  | cons a l ih =>
    rw [List.sum_cons]
    rcases List.mem_cons.mp h with e | h2
    · omega
    · have := ih h2; omega

/-- On a table whose entries sum to `n < 2 ^ 32`, the last row after the host
merge holds the column totals, and they sum to `n`. -/
theorem hostMerge_last_row (V rows n : Nat) (hV : 0 < V) (sums : List Nat)
    (hlen : sums.length = V * (rows + 1)) (hsum : sums.sum = n) (hn : n < 2 ^ 32) :
    ∃ out, hostMerge V sums.length sums = some out ∧
      (∀ v, v < V → out.getD (V * rows + v) 0 =
        ((List.range (rows + 1)).map fun q => sums.getD (V * q + v) 0).sum) ∧
      ((List.range V).map fun v => out.getD (V * rows + v) 0).sum = n := by
  have h32 : ∀ x ∈ sums, x < 2 ^ 32 := fun x hx => by
    have := le_list_sum sums x hx; omega
  obtain ⟨out, ho, _, _, hcol⟩ := hostMerge_spec V rows hV sums hlen h32
  have htot : ∑ v in Finset.range V, ∑ q in Finset.range (rows + 1), sums.getD (V * q + v) 0
      = n := by
    rw [← sum_range_table (fun i => sums.getD i 0) V (rows + 1), ← hlen, ← list_sum_eq_range,
      hsum]
  have hentry : ∀ v, v < V → out.getD (V * rows + v) 0 =
      ((List.range (rows + 1)).map fun q => sums.getD (V * q + v) 0).sum := by
    intro v hv
    rw [hcol rows v (le_refl _) hv]
    apply Nat.mod_eq_of_lt
    rw [list_sum_range_map]
    have := Finset.single_le_sum
      (f := fun v => ∑ q in Finset.range (rows + 1), sums.getD (V * q + v) 0)
      (fun _ _ => Nat.zero_le _) (Finset.mem_range.mpr hv)
    simp only at this
    omega
  refine ⟨out, ho, hentry, ?_⟩
  rw [list_sum_range_map, ← htot]
  apply Finset.sum_congr rfl
  intro v hv
  rw [hentry v (Finset.mem_range.mp hv), list_sum_range_map]

/-- C5: when the entries of the table before the merge sum to `n < 2 ^ 32`
(every element recorded once by the histogram stage), then after the merge
the entries of row `groups_count`, the last row, sum to `n`. -/
theorem C5_last_row_sums_to_n (groups n : Nat) (sums : List Nat)
    (hlen : sums.length = VALUES_PER_DIGIT DIGITS_PER_STEP * (groups + 1))
    (hsum : sums.sum = n) (hn : n < 2 ^ 32) :
    ∃ out, hostMerge (VALUES_PER_DIGIT DIGITS_PER_STEP) sums.length sums = some out ∧
      ((List.range (VALUES_PER_DIGIT DIGITS_PER_STEP)).map fun v =>
        out.getD (VALUES_PER_DIGIT DIGITS_PER_STEP * groups + v) 0).sum = n := by
  obtain ⟨out, ho, _, hs⟩ :=
    hostMerge_last_row (VALUES_PER_DIGIT DIGITS_PER_STEP) groups n (by decide) sums hlen hsum hn
  exact ⟨out, ho, hs⟩

/-- C5 on the table of one partition holding the digits 1, 3, 3, 0, 3. -/
theorem C5_last_row_sums_to_n_witness :
    ∃ out, hostMerge (VALUES_PER_DIGIT DIGITS_PER_STEP) [0, 0, 0, 0, 1, 1, 0, 3].length
        [0, 0, 0, 0, 1, 1, 0, 3] = some out ∧
      ((List.range (VALUES_PER_DIGIT DIGITS_PER_STEP)).map fun v =>
        out.getD (VALUES_PER_DIGIT DIGITS_PER_STEP * 1 + v) 0).sum = 5 :=
  C5_last_row_sums_to_n 1 5 [0, 0, 0, 0, 1, 1, 0, 3] (by decide) (by decide) (by decide)

/-! ## Lists: positions in a filtered list, scattered writes, buckets -/

/-- The `r`-th element of `l.filter p` is an element `l[i]` that satisfies `p`
and has exactly `r` elements satisfying `p` before it. -/
theorem filter_getD_index (p : Nat → Bool) (l : List Nat) :
    ∀ r, r < (l.filter p).length →
      ∃ i, i < l.length ∧ p (l.getD i 0) = true ∧ (l.take i).countP p = r ∧
        (l.filter p).getD r 0 = l.getD i 0 := by
  induction l with
  | nil => intro r h; simp at h
  | cons a l ih =>
    intro r h
    by_cases hp : p a = true
    · rw [List.filter_cons_of_pos hp] at h ⊢
      cases r with
      | zero => exact ⟨0, by simp, by simpa using hp, by simp, by simp⟩
      | succ r =>
        obtain ⟨i, hi, hpi, hc, hg⟩ := ih r (by simpa using h)
        refine ⟨i + 1, by simpa using hi, by simpa using hpi, ?_, by simpa using hg⟩
        rw [List.take_succ_cons, List.countP_cons_of_pos _ _ hp, hc]
    · rw [List.filter_cons_of_neg hp] at h ⊢
      obtain ⟨i, hi, hpi, hc, hg⟩ := ih r h
      refine ⟨i + 1, by simpa using hi, by simpa using hpi, ?_, by simpa using hg⟩
      rw [List.take_succ_cons, List.countP_cons_of_neg _ _ hp, hc]

/-- Writes to pairwise different positions in range: every written position
holds the value written to it. -/
theorem scatter_getD (dest : Nat → Nat) (keys : List Nat) (buf : List Nat) :
    ∀ m, (∀ i, i < m → dest i < buf.length) →
      (∀ i j, i < j → j < m → dest i ≠ dest j) →
      ((List.range m).foldl (fun out i => out.set (dest i) (keys.getD i 0)) buf).length
          = buf.length ∧
        ∀ i, i < m →
          ((List.range m).foldl (fun out i => out.set (dest i) (keys.getD i 0)) buf).getD
            (dest i) 0 = keys.getD i 0 := by
  intro m
  induction m with
  | zero => intro _ _; exact ⟨rfl, fun i h => by omega⟩
  | succ m ih =>
    intro hlt hinj
    obtain ⟨hl, hg⟩ := ih (fun i h => hlt i (by omega)) (fun i j h1 h2 => hinj i j h1 (by omega))
    rw [List.range_succ, List.foldl_append]
    simp only [List.foldl_cons, List.foldl_nil]
    refine ⟨by rw [List.length_set, hl], ?_⟩
    intro i hi
    rcases Nat.eq_or_lt_of_le (Nat.le_of_lt_succ hi) with e | h2
    · subst e
      exact getD_set_eq _ _ _ (by rw [hl]; exact hlt i (by omega))
    · rw [getD_set_ne _ _ _ _ (Ne.symm (hinj i m h2 (by omega))), hg i h2]

theorem countP_lt_succ (f : Nat → Nat) (l : List Nat) (v : Nat) :
    (l.countP fun k => f k < v + 1) =
      (l.countP fun k => f k < v) + (l.countP fun k => f k = v) := by
  induction l with
  | nil => simp
  | cons a l ih =>
    simp only [List.countP_cons, ih]
    by_cases h1 : f a < v
    · simp [h1, show f a ≠ v by omega, show f a < v + 1 by omega]
      omega
    · by_cases h2 : f a = v
      · simp [h2]
        omega
      · simp [h1, h2, show ¬ f a < v + 1 by omega]

theorem buckets_length (f : Nat → Nat) (keys : List Nat) (v : Nat) :
    (buckets f keys v).length = keys.countP fun k => f k < v := by
  induction v with
  | zero => simp [buckets]
  | succ v ih =>
    rw [buckets, List.length_append, ih, ← List.countP_eq_length_filter, countP_lt_succ]

theorem mem_buckets (f : Nat → Nat) (keys : List Nat) (v a : Nat) :
    a ∈ buckets f keys v ↔ a ∈ keys ∧ f a < v := by
  induction v with
  | zero => simp [buckets]
  | succ v ih =>
    rw [buckets, List.mem_append, ih, List.mem_filter]
    simp only [decide_eq_true_eq]
    constructor
    · rintro (⟨h1, h2⟩ | ⟨h1, h2⟩)
      · exact ⟨h1, by omega⟩
      · exact ⟨h1, by omega⟩
    · rintro ⟨h1, h2⟩
      by_cases h : f a = v
      · exact Or.inr ⟨h1, h⟩
      · exact Or.inl ⟨h1, by omega⟩

theorem buckets_count (f : Nat → Nat) (keys : List Nat) (v a : Nat) :
    (buckets f keys v).count a = if f a < v then keys.count a else 0 := by
  induction v with
  | zero => simp [buckets]
  | succ v ih =>
    rw [buckets, List.count_append, ih]
    by_cases h : f a = v
    · rw [List.count_filter (by simpa using h)]
      simp [h]
    · have h0 : (keys.filter fun k => f k = v).count a = 0 := by
        apply List.count_eq_zero_of_not_mem
        simp [List.mem_filter, h]
      rw [h0]
      by_cases h1 : f a < v
      · simp [h1, show f a < v + 1 by omega]
      · simp [h1, show ¬ f a < v + 1 by omega]

/-- The buckets of all digit values are a permutation of the keys. -/
theorem buckets_perm (f : Nat → Nat) (keys : List Nat) (V : Nat)
    (hf : ∀ k ∈ keys, f k < V) : (buckets f keys V).Perm keys := by
  rw [List.perm_iff_count]
  intro a
  rw [buckets_count]
  by_cases h : a ∈ keys
  · simp [hf a h]
  · rw [List.count_eq_zero_of_not_mem h]; simp

/-- Buckets of keys ordered by `lo` are ordered by any `hi` that compares
first by the digit and then by `lo`. -/
theorem buckets_pairwise (f lo hi : Nat → Nat) (keys : List Nat) (V : Nat)
    (hsorted : keys.Pairwise fun a b => lo a ≤ lo b)
    (hlt : ∀ a b, f a < f b → hi a ≤ hi b)
    (heq : ∀ a b, f a = f b → lo a ≤ lo b → hi a ≤ hi b) :
    (buckets f keys V).Pairwise fun a b => hi a ≤ hi b := by
  induction V with
  | zero => simp [buckets]
  | succ v ih =>
    rw [buckets, List.pairwise_append]
    refine ⟨ih, ?_, ?_⟩
    · have h1 := List.Pairwise.filter (fun k => decide (f k = v)) hsorted
      have h2 : ∀ x ∈ keys.filter (fun k => decide (f k = v)), f x = v := by
        intro x hx; simpa using (List.mem_filter.mp hx).2
      refine (List.Pairwise.and_mem.mp h1).imp ?_
      rintro a b ⟨ha, hb, hab⟩
      exact heq a b (by rw [h2 a ha, h2 b hb]) hab
    · intro a ha b hb
      have h1 := ((mem_buckets f keys v a).mp ha).2
      have h2 : f b = v := by simpa using (List.mem_filter.mp hb).2
      exact hlt a b (by omega)

/-- An element that satisfies `p` is not counted in the prefix before it. -/
theorem countP_take_lt (p : Nat → Bool) (l : List Nat) (i : Nat) (hi : i < l.length)
    (hp : p (l.getD i 0) = true) : (l.take i).countP p < l.countP p := by
  have e : l = l.take i ++ l[i] :: l.drop (i + 1) := by
    rw [List.getElem_cons_drop, List.take_append_drop]
  have hp2 : p l[i] = true := by
    rwa [List.getD_eq_getElem?_getD, List.getElem?_eq_getElem hi] at hp
  conv => rhs; rw [e]
  rw [List.countP_append, List.countP_cons_of_pos _ _ hp2]
  omega

theorem countP_take_lt_take (p : Nat → Bool) (l : List Nat) (i j : Nat) (hij : i < j)
    (hj : j ≤ l.length) (hp : p (l.getD i 0) = true) :
    (l.take i).countP p < (l.take j).countP p := by
  have h1 : (l.take j).take i = l.take i := by
    rw [List.take_take, Nat.min_eq_left (by omega)]
  have h2 : (l.take j).getD i 0 = l.getD i 0 := by
    simp [List.getD_eq_getElem?_getD, List.getElem?_take_of_lt hij]
  have := countP_take_lt p (l.take j) i (by rw [List.length_take]; omega) (by rw [h2]; exact hp)
  rwa [h1] at this

theorem countP_lt_mono (f : Nat → Nat) (l : List Nat) (u v : Nat) (h : u ≤ v) :
    (l.countP fun k => f k < u) ≤ l.countP fun k => f k < v := by
  apply List.countP_mono_left
  intro x _ hx
  simp only [decide_eq_true_eq] at hx ⊢
  omega

theorem countP_lt_total (f : Nat → Nat) (l : List Nat) (V : Nat) (hf : ∀ k ∈ l, f k < V) :
    (l.countP fun k => f k < V) = l.length := by
  rw [List.countP_eq_length]
  intro a ha
  simpa using hf a ha

/-- Writing every key `i` to the position "keys with a smaller digit, plus
earlier keys with the same digit" leaves the buckets in ascending order of the
digit, each bucket in input order. -/
theorem scatter_eq_buckets (f : Nat → Nat) (V : Nat) (keys buf : List Nat) (dest : Nat → Nat)
    (hbuf : buf.length = keys.length) (hf : ∀ k ∈ keys, f k < V)
    (hdest : ∀ i, i < keys.length →
      dest i = (keys.countP fun k => f k < f (keys.getD i 0))
        + (keys.take i).countP fun k => f k = f (keys.getD i 0)) :
    (List.range keys.length).foldl (fun out i => out.set (dest i) (keys.getD i 0)) buf
      = buckets f keys V := by
  have hrange : ∀ i, i < keys.length →
      dest i < keys.countP fun k => f k < f (keys.getD i 0) + 1 := by
    intro i hi
    rw [hdest i hi, countP_lt_succ]
    have := countP_take_lt (fun k => decide (f k = f (keys.getD i 0))) keys i hi (by simp)
    omega
  have hlt : ∀ i, i < keys.length → dest i < buf.length := by
    intro i hi
    have h1 := hrange i hi
    have h2 : (keys.countP fun k => f k < f (keys.getD i 0) + 1) ≤ keys.length :=
      List.countP_le_length _
    omega
  have hinj : ∀ i j, i < j → j < keys.length → dest i ≠ dest j := by
    intro i j hij hj
    have hi : i < keys.length := by omega
    rcases Nat.lt_trichotomy (f (keys.getD i 0)) (f (keys.getD j 0)) with h | h | h
    · have h1 := hrange i hi
      have h2 := countP_lt_mono f keys (f (keys.getD i 0) + 1) (f (keys.getD j 0)) h
      have h3 := hdest j hj
      omega
    · have h1 := countP_take_lt_take (fun k => decide (f k = f (keys.getD i 0))) keys i j hij
        (by omega) (by simp)
      rw [hdest i hi, hdest j hj, ← h]
      omega
    · have h1 := hrange j hj
      have h2 := countP_lt_mono f keys (f (keys.getD j 0) + 1) (f (keys.getD i 0)) h
      have h3 := hdest i hi
      omega
  obtain ⟨hlen, hget⟩ := scatter_getD dest keys buf keys.length hlt hinj
  generalize (List.range keys.length).foldl (fun out i => out.set (dest i) (keys.getD i 0)) buf
    = R at hlen hget
  have hblock : ∀ v, v ≤ V → R.take (keys.countP fun k => f k < v) = buckets f keys v := by
    intro v
    induction v with
    | zero => intro _; simp [buckets]
    | succ v ih =>
      intro hv
      rw [countP_lt_succ, List.take_add, ih (by omega), buckets]
      congr 1
      have hle : (keys.countP fun k => f k < v) + (keys.countP fun k => f k = v) ≤ R.length := by
        rw [← countP_lt_succ, hlen, hbuf]; exact List.countP_le_length _
      apply List.ext_getElem
      · rw [List.length_take, List.length_drop, ← List.countP_eq_length_filter]
        omega
      · intro r h1 h2
        obtain ⟨i, hi, hpi, hc, hg⟩ := filter_getD_index (fun k => decide (f k = v)) keys r h2
        simp only [decide_eq_true_eq] at hpi
        have hd : dest i = (keys.countP fun k => f k < v) + r := by
          rw [hdest i hi, hpi, hc]
        have hgi := hget i hi
        rw [hd] at hgi
        rw [List.getD_eq_getElem?_getD, List.getElem?_eq_getElem h2] at hg
        simp only [Option.getD_some] at hg
        rw [hg, ← hgi]
        simp only [List.getElem_take, List.getElem_drop]
        have hr : (keys.countP fun k => f k < v) + r < R.length := by
          rw [← List.countP_eq_length_filter] at h2
          omega
        rw [List.getD_eq_getElem?_getD, List.getElem?_eq_getElem hr]
        simp
  have := hblock V (le_refl V)
  rw [countP_lt_total f keys V hf, List.take_of_length_le (by omega)] at this
  exact this

/-! ## The kernels on one pass -/

theorem getD_range_map (f : Nat → Nat) (m j : Nat) (h : j < m) :
    ((List.range m).map f).getD j 0 = f j := by
  simp [List.getD_eq_getElem?_getD, List.getElem?_range h]

theorem local_sum_indexes (V s gws : Nat) (as indexes sums : List Nat) (mask step n i : Nat)
    (h1 : i < indexes.length) (h2 : i < (as.take n).length) :
    (local_sum V s gws as indexes sums mask step n).1.getD i 0
      = localRank mask step s (as.take n) i := by
  simp only [local_sum]
  rw [getD_range_map _ _ _ h1, if_pos h2]

theorem local_sum_table (V s gws : Nat) (as indexes sums : List Nat) (mask step n j : Nat)
    (h1 : j < sums.length) :
    (local_sum V s gws as indexes sums mask step n).2.getD j 0
      = if V ≤ j ∧ j / V ≤ gws / s then localCount mask step s (as.take n) (j / V - 1) (j % V)
        else sums.getD j 0 := by
  simp only [local_sum]
  rw [getD_range_map _ _ _ h1]

theorem local_sum_table_length (V s gws : Nat) (as indexes sums : List Nat) (mask step n : Nat) :
    (local_sum V s gws as indexes sums mask step n).2.length = sums.length := by
  simp [local_sum]

theorem local_sum_indexes_length (V s gws : Nat) (as indexes sums : List Nat)
    (mask step n : Nat) :
    (local_sum V s gws as indexes sums mask step n).1.length = indexes.length := by
  simp [local_sum]

/-- The prefix of `(r + 1) * s` keys is the prefix of `r * s` keys followed by
partition `r`. -/
theorem take_succ_partition (s : Nat) (keys : List Nat) (r : Nat) :
    keys.take ((r + 1) * s) = keys.take (r * s) ++ partitionOf s keys r := by
  rw [Nat.add_mul, one_mul, List.take_add, partitionOf]

/-- In the table the histogram stage leaves (row 0 zero), the entries of digit
value `v` in rows `0..r` sum to the number of keys with digit `v` among the
first `r * s` keys. -/
theorem histogram_column_sum (V s gws : Nat) (as indexes sums : List Nat) (mask step n : Nat)
    (hV : 0 < V) (rows : Nat) (hlen : sums.length = V * (rows + 1))
    (hrow0 : ∀ v, v < V → sums.getD v 0 = 0) (hg : rows ≤ gws / s) (v : Nat) (hv : v < V) :
    ∀ r, r ≤ rows →
      ((List.range (r + 1)).map fun q =>
        (local_sum V s gws as indexes sums mask step n).2.getD (V * q + v) 0).sum
      = ((as.take n).take (r * s)).countP fun k => digit mask step k = v := by
  intro r
  induction r with
  | zero =>
    intro _
    have hv2 : v < sums.length := by
      rw [hlen]
      have : V * 1 ≤ V * (rows + 1) := Nat.mul_le_mul_left V (by omega)
      omega
    have e1 : (List.range (0 + 1)).map (fun q =>
        (local_sum V s gws as indexes sums mask step n).2.getD (V * q + v) 0)
        = [(local_sum V s gws as indexes sums mask step n).2.getD v 0] := by
      simp [List.range_succ]
    rw [e1, List.sum_singleton, local_sum_table _ _ _ _ _ _ _ _ _ _ hv2,
      if_neg (by omega), hrow0 v hv]
    simp
  | succ r ih =>
    intro hr
    have hb : V * (r + 1) + v < sums.length := by
      rw [hlen]
      have : V * (r + 1) + V ≤ V * (rows + 1) := by
        rw [← Nat.mul_succ]; exact Nat.mul_le_mul_left V (by omega)
      omega
    have hdiv : (V * (r + 1) + v) / V = r + 1 := by
      rw [Nat.mul_add_div hV, Nat.div_eq_of_lt hv, Nat.add_zero]
    have hmod : (V * (r + 1) + v) % V = v := by
      rw [Nat.mul_add_mod, Nat.mod_eq_of_lt hv]
    have hge : V ≤ V * (r + 1) + v := by
      have : V * 1 ≤ V * (r + 1) := Nat.mul_le_mul_left V (by omega)
      omega
    rw [columnSum_succ, ih (by omega), local_sum_table _ _ _ _ _ _ _ _ _ _ hb,
      if_pos ⟨hge, by rw [hdiv]; omega⟩, hdiv, hmod, take_succ_partition, List.countP_append,
      localCount]
    simp

theorem readN_full (buffer host : List Nat) (n : Nat) (h1 : buffer.length = n)
    (h2 : host.length ≤ n) : readN buffer host n = buffer := by
  rw [readN, List.take_of_length_le (by omega), List.drop_eq_nil_of_le h2, List.append_nil]

theorem writeN_full (buffer data : List Nat) (n : Nat) (h1 : data.length = n)
    (h2 : buffer.length ≤ n) : writeN buffer data n = data := by
  rw [writeN, List.take_of_length_le (by omega), List.drop_eq_nil_of_le h2, List.append_nil]

theorem global_work_size_div (groups s : Nat) (hs : 0 < s) (h : groups * s < 2 ^ 32) :
    global_work_size groups s / s = groups := by
  rw [global_work_size, Nat.mod_eq_of_lt h, Nat.mul_div_cancel _ hs]

theorem baseOffset_succ (V groups : Nat) (sums : List Nat) (v : Nat) :
    baseOffset V groups sums (v + 1)
      = baseOffset V groups sums v + sums.getD (groups * V + v) 0 := by
  simp [baseOffset, List.range_succ]

/-- Histogram stage and host merge on `n` keys, from a table whose row 0 is
zero: the merge succeeds, keeps row 0 zero, and the entry of digit value `v`
in row `r` is the number of keys with digit `v` among the first `r * s`. -/
theorem merged_table (V s groups n mask step : Nat) (as indexes sums : List Nat)
    (hV : 0 < V) (hs : 0 < s) (hn : as.length = n) (hn32 : n < 2 ^ 32)
    (hgs : groups * s < 2 ^ 32)
    (hlen : sums.length = V * (groups + 1)) (hrow0 : ∀ v, v < V → sums.getD v 0 = 0) :
    ∃ merged,
      hostMerge V (V * (groups + 1))
        (local_sum V s (global_work_size groups s) as indexes sums mask step n).2 = some merged ∧
      merged.length = V * (groups + 1) ∧
      (∀ v, v < V → merged.getD v 0 = 0) ∧
      (∀ x ∈ merged, x < 2 ^ 32) ∧
      ∀ r v, r ≤ groups → v < V →
        merged.getD (V * r + v) 0 = (as.take (r * s)).countP fun k => digit mask step k = v := by
  have hdiv := global_work_size_div groups s hs hgs
  have hkeys : as.take n = as := List.take_of_length_le (by omega)
  have htl := local_sum_table_length V s (global_work_size groups s) as indexes sums mask step n
  have h32 : ∀ x ∈ (local_sum V s (global_work_size groups s) as indexes sums mask step n).2,
      x < 2 ^ 32 := by
    intro x hx
    obtain ⟨j, hj, rfl⟩ := List.getElem_of_mem hx
    rw [htl] at hj
    have e := local_sum_table V s (global_work_size groups s) as indexes sums mask step n j hj
    rw [List.getD_eq_getElem?_getD, List.getElem?_eq_getElem (by rw [htl]; exact hj)] at e
    simp only [Option.getD_some] at e
    rw [e]
    split
    · have h1 : localCount mask step s (as.take n) (j / V - 1) (j % V)
          ≤ (partitionOf s (as.take n) (j / V - 1)).length := List.countP_le_length _
      have h2 : (partitionOf s (as.take n) (j / V - 1)).length ≤ n := by
        simp only [partitionOf, List.length_take, List.length_drop, hkeys, hn]
        omega
      omega
    · rename_i hc
      have hjV : j / V ≤ groups := by
        have : j / V < groups + 1 := by
          rw [Nat.div_lt_iff_lt_mul hV, Nat.mul_comm]; omega
        omega
      have hj0 : j < V := by
        by_contra hcon
        exact hc ⟨by omega, by rw [hdiv]; exact hjV⟩
      rw [hrow0 j hj0]
      norm_num
  obtain ⟨merged, hm, hml, hmrow0, hmcol⟩ := hostMerge_spec V groups hV _ (htl.trans hlen) h32
  rw [htl, hlen] at hm hml
  have hentry : ∀ r v, r ≤ groups → v < V →
      merged.getD (V * r + v) 0 = (as.take (r * s)).countP fun k => digit mask step k = v := by
    intro r v hr hv
    rw [hmcol r v hr hv, histogram_column_sum V s _ as indexes sums mask step n hV groups hlen
      hrow0 (by rw [hdiv]) v hv r hr, hkeys]
    apply Nat.mod_eq_of_lt
    have h1 : ((as.take (r * s)).countP fun k => digit mask step k = v) ≤ (as.take (r * s)).length :=
      List.countP_le_length _
    have h2 : (as.take (r * s)).length ≤ n := by rw [List.length_take]; omega
    omega
  refine ⟨merged, hm, hml, ?_, ?_, hentry⟩
  · intro v hv
    have := hentry 0 v (Nat.zero_le _) hv
    simpa using this
  · intro x hx
    obtain ⟨j, hj, rfl⟩ := List.getElem_of_mem hx
    rw [hml] at hj
    have hjV : j / V ≤ groups := by
      have : j / V < groups + 1 := by
        rw [Nat.div_lt_iff_lt_mul hV, Nat.mul_comm]; omega
      omega
    have hmv : j % V < V := Nat.mod_lt _ hV
    have e := hentry (j / V) (j % V) hjV hmv
    rw [Nat.div_add_mod, List.getD_eq_getElem?_getD,
      List.getElem?_eq_getElem (by rw [hml]; exact hj)] at e
    simp only [Option.getD_some] at e
    rw [e]
    have h1 : ((as.take (j / V * s)).countP fun k => digit mask step k = j % V)
        ≤ (as.take (j / V * s)).length := List.countP_le_length _
    have h2 : (as.take (j / V * s)).length ≤ n := by rw [List.length_take]; omega
    omega

/-- The scatter stage, fed with the ranks of the histogram stage and a merged
table whose entries count the keys of each digit value in the partitions
before, writes the buckets of the digit in ascending order. -/
theorem radix_eq_buckets (V s groups n mask step : Nat) (as out indexes sums merged : List Nat)
    (hs : 0 < s) (hn : as.length = n) (hout : out.length = n) (hidx : indexes.length = n)
    (hgs : groups * s < 2 ^ 32) (hcover : n ≤ groups * s)
    (hdig : ∀ k, digit mask step k < V)
    (hentry : ∀ r v, r ≤ groups → v < V →
      merged.getD (V * r + v) 0 = (as.take (r * s)).countP fun k => digit mask step k = v) :
    radix V s (global_work_size groups s) as out
        (local_sum V s (global_work_size groups s) as indexes sums mask step n).1 merged
        mask step n
      = buckets (digit mask step) as V := by
  have hdiv := global_work_size_div groups s hs hgs
  have hkeys : as.take n = as := List.take_of_length_le (by omega)
  have hbase : ∀ v, v ≤ V →
      baseOffset V groups merged v = as.countP fun k => digit mask step k < v := by
    intro v
    induction v with
    | zero => intro _; simp [baseOffset]
    | succ v ih =>
      intro hv
      rw [baseOffset_succ, ih (by omega), countP_lt_succ, Nat.mul_comm groups V,
        hentry groups v (le_refl _) (by omega), List.take_of_length_le (by omega)]
  simp only [radix, hkeys, hdiv]
  apply scatter_eq_buckets (digit mask step) V as out _ (by omega) (fun k _ => hdig k)
  intro i hi
  have hq : i / s < groups := by
    rw [Nat.div_lt_iff_lt_mul hs]; omega
  have hle : i / s * s ≤ i := Nat.div_mul_le_self i s
  have hsplit : as.take i = as.take (i / s * s) ++ (as.take i).drop (i / s * s) := by
    conv => lhs; rw [← List.take_append_drop (i / s * s) (as.take i)]
    rw [List.take_take, Nat.min_eq_left hle]
  rw [destination, hbase _ (Nat.le_of_lt (hdig _)), Nat.mul_comm (i / s) V,
    hentry (i / s) _ (by omega) (hdig _),
    local_sum_indexes V s _ as indexes sums mask step n i (by omega) (by rw [hkeys]; omega),
    hkeys, localRank]
  conv => rhs; rw [hsplit, List.countP_append]
  omega

/-! ## One pass on the host state -/

theorem mem_store_same (st : State) (b : Buf) (data : List Nat) :
    (st.store b data).mem b = data := by
  cases b <;> rfl

theorem mem_store_other (st : State) (b c : Buf) (data : List Nat) (h : c ≠ b) :
    (st.store b data).mem c = st.mem c := by
  cases b <;> cases c <;> first | rfl | exact absurd rfl h

theorem mem_congr (st1 st2 : State) (h1 : st1.first = st2.first) (h2 : st1.second = st2.second)
    (b : Buf) : st1.mem b = st2.mem b := by
  cases b
  · exact h1
  · exact h2

theorem store_lengths (st : State) (b : Buf) (data : List Nat) (n : Nat)
    (h1 : st.first.length = n) (h2 : st.second.length = n) (h : data.length = n) :
    (st.store b data).first.length = n ∧ (st.store b data).second.length = n := by
  cases b
  · exact ⟨h, h2⟩
  · exact ⟨h1, h⟩

theorem sums_size_eq (w groups : Nat) (h : VALUES_PER_DIGIT w * (groups + 1) < 2 ^ 32) :
    sums_size w groups = VALUES_PER_DIGIT w * (groups + 1) := by
  rcases Nat.eq_zero_or_pos (VALUES_PER_DIGIT w) with h0 | h0
  · simp [sums_size, h0]
  · have h1 : groups + 1 < 2 ^ 32 := by
      have : 1 * (groups + 1) ≤ VALUES_PER_DIGIT w * (groups + 1) :=
        Nat.mul_le_mul_right _ h0
      omega
    rw [sums_size, Nat.mod_eq_of_lt h1, Nat.mod_eq_of_lt h]

theorem mem_length (w n groups : Nat) (st : State) (h : Sized w n groups st) (b : Buf) :
    (st.mem b).length = n := by
  cases b
  · exact h.2.1
  · exact h.2.2.1

theorem VALUES_PER_DIGIT_pos (w : Nat) (h : w ≤ 31) : 0 < VALUES_PER_DIGIT w := by
  rw [VALUES_PER_DIGIT_eq w h]; positivity

theorem foldl_set_length (d x : Nat → Nat) (l : List Nat) :
    ∀ buf : List Nat, (l.foldl (fun out i => out.set (d i) (x i)) buf).length = buf.length := by
  induction l with
  | nil => intro buf; rfl
  | cons a l ih => intro buf; rw [List.foldl_cons, ih, List.length_set]

theorem radix_length (V s gws : Nat) (as out indexes sums : List Nat) (mask step n : Nat) :
    (radix V s gws as out indexes sums mask step n).length = out.length := by
  simp only [radix]
  exact foldl_set_length _ _ _ _

/-- One pass from a sized state: the merge succeeds and the pass yields the
state written out below, which is sized again. -/
theorem pass_unfold (w s n groups : Nat) (st : State) (hw : w ≤ 31)
    (hsize : VALUES_PER_DIGIT w * (groups + 1) < 2 ^ 32) (hst : Sized w n groups st) :
    ∃ merged st1,
      hostMerge (VALUES_PER_DIGIT w) (VALUES_PER_DIGIT w * (groups + 1))
        (local_sum (VALUES_PER_DIGIT w) s (global_work_size groups s) (st.mem st.as_gpu)
          st.indexes st.sums_gpu (initialMask w) st.step n).2 = some merged ∧
      pass w s n groups st = some st1 ∧ Sized w n groups st1 ∧
      st1.as_gpu = st.as_buffer ∧ st1.as_buffer = st.as_gpu ∧
      st1.mem st1.as_buffer = st.mem st.as_gpu ∧
      st1.mem st1.as_gpu =
        radix (VALUES_PER_DIGIT w) s (global_work_size groups s) (st.mem st.as_gpu)
          (st.mem st.as_buffer)
          (local_sum (VALUES_PER_DIGIT w) s (global_work_size groups s) (st.mem st.as_gpu)
            st.indexes st.sums_gpu (initialMask w) st.step n).1 merged (initialMask w) st.step n ∧
      st1.sums_gpu = merged ∧
      st1.step = (st.step + w) % 2 ^ 32 ∧
      st1.calls = st.calls ++ [Call.local_sum st.sums_gpu (initialMask w) st.step n,
        Call.radix merged (initialMask w) st.step n] := by
  obtain ⟨hne, hl1, hl2, hli, hls, hlh, hrow0⟩ := hst
  have hV := VALUES_PER_DIGIT_pos w hw
  have hsz := sums_size_eq w groups hsize
  set hist := local_sum (VALUES_PER_DIGIT w) s (global_work_size groups s) (st.mem st.as_gpu)
    st.indexes st.sums_gpu (initialMask w) st.step n with hhist
  have htl : hist.2.length = VALUES_PER_DIGIT w * (groups + 1) := by
    rw [hhist, local_sum_table_length, hls, hsz]
  have hread : readN hist.2 st.sums (sums_size w groups) = hist.2 :=
    readN_full _ _ _ (by rw [htl, hsz]) hlh
  have hle : VALUES_PER_DIGIT w ≤ hist.2.length := by
    rw [htl]; exact Nat.le_mul_of_pos_right _ (by omega)
  obtain ⟨merged, hm, hml, hmlow, -, -⟩ :=
    mergeLoop_spec (VALUES_PER_DIGIT w) hV (hist.2.length - VALUES_PER_DIGIT w)
      (VALUES_PER_DIGIT w) hist.2 (le_refl _) (by omega)
  have hm2 : hostMerge (VALUES_PER_DIGIT w) (VALUES_PER_DIGIT w * (groups + 1)) hist.2
      = some merged := by
    rw [hostMerge, ← htl]; exact hm
  have hwrite : writeN hist.2 merged (sums_size w groups) = merged :=
    writeN_full _ _ _ (by rw [hml, htl, hsz]) (by rw [htl, hsz])
  have hpass : pass w s n groups st = some
      { st.store st.as_buffer (radix (VALUES_PER_DIGIT w) s (global_work_size groups s)
          (st.mem st.as_gpu) (st.mem st.as_buffer) hist.1 merged (initialMask w) st.step n) with
        indexes := hist.1
        sums_gpu := merged
        as_gpu := st.as_buffer
        as_buffer := st.as_gpu
        sums := merged
        step := (st.step + w) % 2 ^ 32
        calls := st.calls ++ [Call.local_sum st.sums_gpu (initialMask w) st.step n,
          Call.radix merged (initialMask w) st.step n] } := by
    rw [hsz] at hread hwrite
    simp only [pass, ← hhist, hsz, hread, hm2, hwrite]
  refine ⟨merged, _, hm2, hpass, ?_, rfl, rfl, ?_, ?_, rfl, rfl, rfl⟩
  · have hlo : (radix (VALUES_PER_DIGIT w) s (global_work_size groups s) (st.mem st.as_gpu)
        (st.mem st.as_buffer) hist.1 merged (initialMask w) st.step n).length = n := by
      rw [radix_length]
      exact mem_length w n groups st ⟨hne, hl1, hl2, hli, hls, hlh, hrow0⟩ _
    refine ⟨?_, ?_, ?_, ?_, ?_, ?_, ?_⟩
    · exact fun h => hne h.symm
    · exact (store_lengths st st.as_buffer _ n hl1 hl2 hlo).1
    · exact (store_lengths st st.as_buffer _ n hl1 hl2 hlo).2
    · show hist.1.length = n
      rw [hhist, local_sum_indexes_length, hli]
    · show merged.length = sums_size w groups
      rw [hml, htl, hsz]
    · show merged.length ≤ sums_size w groups
      rw [hml, htl, hsz]
    · intro v hv
      show merged.getD v 0 = 0
      rw [hmlow v hv, hhist, local_sum_table _ _ _ _ _ _ _ _ _ _ (by rw [hls, hsz]; omega),
        if_neg (by omega), hrow0 v hv]
  · show State.mem _ st.as_gpu = st.mem st.as_gpu
    have := mem_store_other st st.as_buffer st.as_gpu (radix (VALUES_PER_DIGIT w) s
      (global_work_size groups s) (st.mem st.as_gpu) (st.mem st.as_buffer) hist.1 merged
      (initialMask w) st.step n) hne
    exact (mem_congr _ _ rfl rfl _).trans this
  · show State.mem _ st.as_buffer = _
    have := mem_store_same st st.as_buffer (radix (VALUES_PER_DIGIT w) s
      (global_work_size groups s) (st.mem st.as_gpu) (st.mem st.as_buffer) hist.1 merged
      (initialMask w) st.step n)
    exact (mem_congr _ _ rfl rfl _).trans this

/-! ## The digit loop -/

/-- Pass `p` is run exactly when `p` is below the ceiling of `32 / w`. -/
theorem lt_turns_iff (w p : Nat) (hw : 1 ≤ w) : p < (32 + w - 1) / w ↔ p * w < 32 := by
  rw [Nat.lt_iff_add_one_le, Nat.le_div_iff_mul_le (by omega), Nat.add_mul, one_mul]
  omega

theorem turns_le (w : Nat) (hw : 1 ≤ w) : (32 + w - 1) / w ≤ 32 := by
  by_contra h
  have h1 : (32 : Nat) < (32 + w - 1) / w := by omega
  rw [lt_turns_iff w 32 hw] at h1
  have : 32 * 1 ≤ 32 * w := Nat.mul_le_mul_left 32 hw
  omega

/-- With enough turns allowed, the digit loop entered at `digit = p * w` is
the composition of the passes that remain. -/
theorem digitLoop_eq_passes (w s n groups : Nat) (hw1 : 1 ≤ w) (hw2 : w ≤ 32) :
    ∀ (fuel p : Nat) (st : State), p ≤ (32 + w - 1) / w → (32 + w - 1) / w - p ≤ fuel →
      digitLoop w s n groups fuel (p * w) st = passes w s n groups ((32 + w - 1) / w - p) st := by
  intro fuel
  induction fuel with
  | zero =>
    intro p st hp hf
    have e : (32 + w - 1) / w - p = 0 := by omega
    have h : ¬ p * w < 32 := by
      rw [← lt_turns_iff w p hw1]; omega
    rw [e, digitLoop, if_neg h, passes]
  | succ fuel ih =>
    intro p st hp hf
    by_cases h : p * w < 32
    · have hlt := (lt_turns_iff w p hw1).mpr h
      have e : (32 + w - 1) / w - p = ((32 + w - 1) / w - (p + 1)) + 1 := by omega
      have e2 : (p * w + w) % 2 ^ 32 = (p + 1) * w := by
        rw [Nat.add_mul, one_mul]
        exact Nat.mod_eq_of_lt (by omega)
      rw [e, digitLoop, if_pos h, passes, e2]
      cases hpass : pass w s n groups st with
      | none => rfl
      | some st1 => exact ih (p + 1) st1 (by omega) (by omega)
    · have e : (32 + w - 1) / w - p = 0 := by
        have := (lt_turns_iff w p hw1).not.mpr h
        omega
      rw [e, digitLoop, if_neg h, passes]

/-- One sort is the upload followed by `ceil(32 / w)` passes. -/
theorem sortOnce_eq_passes (w s n groups : Nat) (as : List Nat) (st : State)
    (hw1 : 1 ≤ w) (hw2 : w ≤ 31) :
    sortOnce w s n groups as st
      = passes w s n groups ((32 + w - 1) / w) (uploaded w n groups as st) := by
  have := digitLoop_eq_passes w s n groups hw1 (by omega) 32 0 (uploaded w n groups as st)
    (Nat.zero_le _) (by have := turns_le w hw1; omega)
  rw [Nat.zero_mul, Nat.sub_zero] at this
  have hc : constantsDefined w = true := decide_eq_true ⟨hw1, hw2⟩
  rw [sortOnce, hc, if_pos rfl]
  exact this

theorem digit_lt (w step key : Nat) (hw1 : 1 ≤ w) (hw2 : w ≤ 31) :
    digit (initialMask w) step key < VALUES_PER_DIGIT w := by
  rw [digit_eq w step key hw1 (by omega), VALUES_PER_DIGIT_eq w hw2]
  exact Nat.mod_lt _ (by positivity)

/-- One pass from a sized state, when the launch covers the `n` keys and
nothing overflows: the buffer `as_gpu` designates afterwards holds the buckets
of the pass's digit, the other one the keys the pass read. -/
theorem pass_buckets (w s n groups : Nat) (st : State) (hw1 : 1 ≤ w) (hw2 : w ≤ 31)
    (hs : 0 < s) (hn32 : n < 2 ^ 32) (hgs : groups * s < 2 ^ 32) (hcover : n ≤ groups * s)
    (hsize : VALUES_PER_DIGIT w * (groups + 1) < 2 ^ 32) (hst : Sized w n groups st) :
    ∃ st1, pass w s n groups st = some st1 ∧ Sized w n groups st1 ∧
      st1.as_gpu = st.as_buffer ∧ st1.as_buffer = st.as_gpu ∧
      st1.mem st1.as_buffer = st.mem st.as_gpu ∧
      st1.mem st1.as_gpu =
        buckets (digit (initialMask w) st.step) (st.mem st.as_gpu) (VALUES_PER_DIGIT w) ∧
      st1.step = (st.step + w) % 2 ^ 32 := by
  obtain ⟨merged, st1, hm, hp, hs1, h1, h2, h3, h4, -, h6, -⟩ :=
    pass_unfold w s n groups st hw2 hsize hst
  have hV := VALUES_PER_DIGIT_pos w hw2
  have hlen := mem_length w n groups st hst
  obtain ⟨merged2, hm2, -, -, -, hentry⟩ :=
    merged_table (VALUES_PER_DIGIT w) s groups n (initialMask w) st.step (st.mem st.as_gpu)
      st.indexes st.sums_gpu hV hs (hlen _) hn32 hgs
      (by rw [hst.2.2.2.2.1, sums_size_eq w groups hsize]) hst.2.2.2.2.2.2
  have e : merged = merged2 := Option.some.inj (hm.symm.trans hm2)
  subst e
  refine ⟨st1, hp, hs1, h1, h2, h3, ?_, h6⟩
  rw [h4]
  exact radix_eq_buckets (VALUES_PER_DIGIT w) s groups n (initialMask w) st.step _ _ _ _ _ hs
    (hlen _) (hlen _) hst.2.2.2.1 hgs hcover (fun k => digit_lt w _ k hw1 hw2) hentry

/-- The passes `p .. p + k - 1` from a sized state whose `step` is `p * w`. -/
theorem passes_lsd (w s n groups : Nat) (hw1 : 1 ≤ w) (hw2 : w ≤ 31)
    (hs : 0 < s) (hn32 : n < 2 ^ 32) (hgs : groups * s < 2 ^ 32) (hcover : n ≤ groups * s)
    (hsize : VALUES_PER_DIGIT w * (groups + 1) < 2 ^ 32) :
    ∀ (k p : Nat) (st : State), Sized w n groups st → st.step = p * w →
      (p + k) * w < 2 ^ 32 →
      ∃ st1, passes w s n groups k st = some st1 ∧ Sized w n groups st1 ∧
        st1.mem st1.as_gpu = lsdFrom w p k (st.mem st.as_gpu) ∧
        st1.step = (p + k) * w := by
  intro k
  induction k with
  | zero =>
    intro p st hst hstep _
    exact ⟨st, rfl, hst, rfl, hstep⟩
  | succ k ih =>
    intro p st hst hstep hbound
    obtain ⟨st1, hp, hs1, -, -, -, hkeys, hstep1⟩ :=
      pass_buckets w s n groups st hw1 hw2 hs hn32 hgs hcover hsize hst
    have hle : (p + 1) * w ≤ (p + (k + 1)) * w := Nat.mul_le_mul_right w (by omega)
    have hstep2 : st1.step = (p + 1) * w := by
      rw [hstep1, hstep, Nat.add_mul, one_mul]
      exact Nat.mod_eq_of_lt (by rw [Nat.add_mul, one_mul] at hle; omega)
    obtain ⟨st2, hp2, hs2, hkeys2, hstep3⟩ :=
      ih (p + 1) st1 hs1 hstep2 (by rw [show p + 1 + k = p + (k + 1) by omega]; exact hbound)
    refine ⟨st2, ?_, hs2, ?_, ?_⟩
    · rw [passes, hp]; exact hp2
    · rw [hkeys2, hkeys, hstep, lsdFrom]
    · rw [hstep3, show p + 1 + k = p + (k + 1) by omega]

/-! ## Least-significant-digit passes order the keys -/

/-- The low `(p + 1) * w` bits of a key are its digit at shift `p * w` on top
of its low `p * w` bits. -/
theorem mod_succ_digit (w p key : Nat) (hw1 : 1 ≤ w) (hw2 : w ≤ 31) :
    key % 2 ^ ((p + 1) * w)
      = key % 2 ^ (p * w) + 2 ^ (p * w) * digit (initialMask w) (p * w) key := by
  rw [digit_eq w _ key hw1 (by omega), Nat.add_mul, one_mul, Nat.pow_add, Nat.mod_mul]

/-- After the passes `p .. p + k - 1` keys that were ordered by their low
`p * w` bits are ordered by their low `(p + k) * w` bits, and no key is lost
or duplicated. -/
theorem lsdFrom_sorted (w : Nat) (hw1 : 1 ≤ w) (hw2 : w ≤ 31) :
    ∀ (k p : Nat) (keys : List Nat),
      keys.Pairwise (fun a b => a % 2 ^ (p * w) ≤ b % 2 ^ (p * w)) →
      (lsdFrom w p k keys).Pairwise (fun a b => a % 2 ^ ((p + k) * w) ≤ b % 2 ^ ((p + k) * w)) ∧
        (lsdFrom w p k keys).Perm keys := by
  intro k
  induction k with
  | zero => intro p keys h; exact ⟨h, List.Perm.refl _⟩
  | succ k ih =>
    intro p keys h
    have hperm : (buckets (digit (initialMask w) (p * w)) keys (VALUES_PER_DIGIT w)).Perm keys :=
      buckets_perm _ _ _ (fun a _ => digit_lt w _ a hw1 hw2)
    have hsorted : (buckets (digit (initialMask w) (p * w)) keys (VALUES_PER_DIGIT w)).Pairwise
        (fun a b => a % 2 ^ ((p + 1) * w) ≤ b % 2 ^ ((p + 1) * w)) := by
      apply buckets_pairwise (digit (initialMask w) (p * w)) (fun a => a % 2 ^ (p * w))
        (fun a => a % 2 ^ ((p + 1) * w)) keys _ h
      · intro a b hab
        simp only [mod_succ_digit w p _ hw1 hw2]
        have h1 : a % 2 ^ (p * w) < 2 ^ (p * w) := Nat.mod_lt _ (by positivity)
        have h2 : 2 ^ (p * w) * (digit (initialMask w) (p * w) a + 1)
            ≤ 2 ^ (p * w) * digit (initialMask w) (p * w) b := Nat.mul_le_mul_left _ hab
        rw [Nat.mul_succ] at h2
        omega
      · intro a b hab hlo
        simp only [mod_succ_digit w p _ hw1 hw2, hab]
        omega
    obtain ⟨h1, h2⟩ := ih (p + 1) _ hsorted
    rw [show p + 1 + k = p + (k + 1) by omega] at h1
    exact ⟨h1, h2.trans hperm⟩

/-- With the digit width 2, sixteen passes from shift 0 sort 32-bit keys. -/
theorem lsdFrom_sort (keys : List Nat) (h32 : ∀ k ∈ keys, k < 2 ^ 32) :
    lsdFrom 2 0 16 keys = keys.insertionSort (· ≤ ·) := by
  obtain ⟨h1, h2⟩ := lsdFrom_sorted 2 (by decide) (by decide) 16 0 keys (by
    simp only [Nat.zero_mul, Nat.pow_zero, Nat.mod_one]
    exact List.pairwise_of_forall (fun _ _ => le_refl _))
  haveI : IsAntisymm Nat (fun x1 x2 => x1 ≤ x2) := ⟨fun _ _ => Nat.le_antisymm⟩
  apply List.eq_of_perm_of_sorted (r := (· ≤ ·)) (h2.trans (List.perm_insertionSort _ _).symm)
  · refine (List.Pairwise.and_mem.mp h1).imp ?_
    rintro a b ⟨ha, hb, hab⟩
    have e1 := Nat.mod_eq_of_lt (h32 a (h2.subset ha))
    have e2 := Nat.mod_eq_of_lt (h32 b (h2.subset hb))
    norm_num at hab e1 e2
    omega
  · exact List.sorted_insertionSort _ _

/-! ## One sort, the benchmark loop, the read-back -/

theorem getD_replicate_zero (m j : Nat) : (List.replicate m 0).getD j 0 = 0 := by
  rw [List.getD_eq_getElem?_getD, List.getElem?_replicate]
  split <;> rfl

theorem store_fields (st : State) (b : Buf) (data : List Nat) :
    (st.store b data).as_gpu = st.as_gpu ∧ (st.store b data).as_buffer = st.as_buffer ∧
      (st.store b data).indexes = st.indexes ∧ (st.store b data).calls = st.calls := by
  cases b <;> exact ⟨rfl, rfl, rfl, rfl⟩

/-- The uploads that open a benchmark iteration turn a state with sized
buffers into a sized state with a zero table, the input in `as_gpu` and
`step = 0`; the launch record is kept. -/
theorem uploaded_sized (w n groups : Nat) (as : List Nat) (st : State) (has : as.length = n)
    (hne : st.as_gpu ≠ st.as_buffer) (h1 : st.first.length = n) (h2 : st.second.length = n)
    (hi : st.indexes.length = n) (hsg : st.sums_gpu.length = sums_size w groups) :
    Sized w n groups (uploaded w n groups as st) ∧
      (uploaded w n groups as st).mem (uploaded w n groups as st).as_gpu = as ∧
      (uploaded w n groups as st).step = 0 ∧
      (uploaded w n groups as st).sums_gpu = List.replicate (sums_size w groups) 0 ∧
      (uploaded w n groups as st).calls = st.calls := by
  have hmem : (st.mem st.as_gpu).length = n := by
    cases st.as_gpu
    · exact h1
    · exact h2
  have hw : writeN (st.mem st.as_gpu) as n = as := writeN_full _ _ _ has (by omega)
  have hz : writeN st.sums_gpu (List.replicate (sums_size w groups) 0) (sums_size w groups)
      = List.replicate (sums_size w groups) 0 :=
    writeN_full _ _ _ (List.length_replicate _ _) (by omega)
  have hl := store_lengths st st.as_gpu (writeN (st.mem st.as_gpu) as n) n h1 h2
    (by rw [hw]; exact has)
  obtain ⟨f1, f2, f3, f4⟩ := store_fields st st.as_gpu (writeN (st.mem st.as_gpu) as n)
  have e : (uploaded w n groups as st).as_gpu = st.as_gpu := f1
  refine ⟨⟨?_, hl.1, hl.2, ?_, ?_, ?_, ?_⟩, ?_, rfl, hz, f4⟩
  · show (st.store st.as_gpu _).as_gpu ≠ (st.store st.as_gpu _).as_buffer
    rw [f1, f2]; exact hne
  · show (st.store st.as_gpu _).indexes.length = n
    rw [f3]; exact hi
  · show (writeN st.sums_gpu _ _).length = _
    rw [hz, List.length_replicate]
  · show (List.replicate (sums_size w groups) 0).length ≤ _
    rw [List.length_replicate]
  · intro v _
    show (writeN st.sums_gpu _ _).getD v 0 = 0
    rw [hz, getD_replicate_zero]
  · have := mem_store_same st st.as_gpu (writeN (st.mem st.as_gpu) as n)
    rw [e]
    exact ((mem_congr (uploaded w n groups as st)
      (st.store st.as_gpu (writeN (st.mem st.as_gpu) as n)) rfl rfl _).trans this).trans hw

/-- One sort from a state with sized buffers. -/
theorem sortOnce_lsd (w s n groups : Nat) (as : List Nat) (st : State)
    (hw1 : 1 ≤ w) (hw2 : w ≤ 31)
    (hs : 0 < s) (hn32 : n < 2 ^ 32) (hgs : groups * s < 2 ^ 32) (hcover : n ≤ groups * s)
    (hsize : VALUES_PER_DIGIT w * (groups + 1) < 2 ^ 32) (has : as.length = n)
    (hne : st.as_gpu ≠ st.as_buffer) (h1 : st.first.length = n) (h2 : st.second.length = n)
    (hi : st.indexes.length = n) (hsg : st.sums_gpu.length = sums_size w groups) :
    ∃ st1, sortOnce w s n groups as st = some st1 ∧ Sized w n groups st1 ∧
      st1.mem st1.as_gpu = lsdFrom w 0 ((32 + w - 1) / w) as := by
  obtain ⟨hsz, hmem, hstep, -, -⟩ := uploaded_sized w n groups as st has hne h1 h2 hi hsg
  have hT := turns_le w hw1
  have hb : (0 + (32 + w - 1) / w) * w < 2 ^ 32 := by
    rw [Nat.zero_add]
    have : (32 + w - 1) / w * w ≤ 32 * 31 := Nat.mul_le_mul hT hw2
    omega
  obtain ⟨st1, hp, hs1, hk, -⟩ :=
    passes_lsd w s n groups hw1 hw2 hs hn32 hgs hcover hsize ((32 + w - 1) / w) 0
      (uploaded w n groups as st) hsz (by rw [hstep, Nat.zero_mul]) hb
  refine ⟨st1, ?_, hs1, ?_⟩
  · rw [sortOnce_eq_passes w s n groups as st hw1 hw2]; exact hp
  · rw [hk, hmem]

/-- The benchmark loop with at least one iteration ends in the state of a sort
of the input. -/
theorem benchLoop_lsd (w s n groups : Nat) (as : List Nat)
    (hw1 : 1 ≤ w) (hw2 : w ≤ 31)
    (hs : 0 < s) (hn32 : n < 2 ^ 32) (hgs : groups * s < 2 ^ 32) (hcover : n ≤ groups * s)
    (hsize : VALUES_PER_DIGIT w * (groups + 1) < 2 ^ 32) (has : as.length = n) :
    ∀ (iters : Nat) (st : State), st.as_gpu ≠ st.as_buffer → st.first.length = n →
      st.second.length = n → st.indexes.length = n → st.sums_gpu.length = sums_size w groups →
      ∃ st1, benchLoop w s n groups as (iters + 1) st = some st1 ∧ Sized w n groups st1 ∧
        st1.mem st1.as_gpu = lsdFrom w 0 ((32 + w - 1) / w) as := by
  intro iters
  induction iters with
  | zero =>
    intro st hne h1 h2 hi hsg
    obtain ⟨st1, hp, hs1, hk⟩ :=
      sortOnce_lsd w s n groups as st hw1 hw2 hs hn32 hgs hcover hsize has hne h1 h2 hi hsg
    exact ⟨st1, by rw [benchLoop, hp]; rfl, hs1, hk⟩
  | succ iters ih =>
    intro st hne h1 h2 hi hsg
    obtain ⟨st1, hp, hs1, -⟩ :=
      sortOnce_lsd w s n groups as st hw1 hw2 hs hn32 hgs hcover hsize has hne h1 h2 hi hsg
    obtain ⟨st2, hp2, hs2, hk2⟩ := ih st1 hs1.1 hs1.2.1 hs1.2.2.1 hs1.2.2.2.1 hs1.2.2.2.2.1
    exact ⟨st2, by rw [benchLoop, hp]; exact hp2, hs2, hk2⟩

/-- The array read back by the program is the result of `ceil(32 / w)`
reference passes on the input. -/
theorem gpuSort_lsd (w s n : Nat) (as keys0 keys1 indexes0 sums0 : List Nat)
    (hw1 : 1 ≤ w) (hw2 : w ≤ 31) (hs : 1 ≤ s) (hns : n + s - 1 < 2 ^ 32)
    (hsize : VALUES_PER_DIGIT w * ((n + s - 1) / s + 1) < 2 ^ 32) (has : as.length = n)
    (hk0 : keys0.length = n) (hk1 : keys1.length = n) (hi0 : indexes0.length = n)
    (hs0 : sums0.length = VALUES_PER_DIGIT w * ((n + s - 1) / s + 1)) :
    gpuSort w s n as keys0 keys1 indexes0 sums0 = some (lsdFrom w 0 ((32 + w - 1) / w) as) := by
  obtain ⟨hlo, hhi⟩ := ceil_div_bounds n s hs
  obtain ⟨st1, hp, -, hk⟩ :=
    benchLoop_lsd w s n ((n + s - 1) / s) as hw1 hw2 hs (by omega) (by omega) hlo hsize has 9
      (initState keys0 keys1 indexes0 sums0) (by simp [initState]) hk0 hk1 hi0
      (by rw [sums_size_eq _ _ hsize]; exact hs0)
  have hlen : (lsdFrom w 0 ((32 + w - 1) / w) as).length = n := by
    have := (lsdFrom_sorted w hw1 hw2 ((32 + w - 1) / w) 0 as (by
      simp only [Nat.zero_mul, Nat.pow_zero, Nat.mod_one]
      exact List.pairwise_of_forall (fun _ _ => le_refl _))).2.length_eq
    rw [this, has]
  simp only [gpuSort, gpuRun, groups_count_eq n s hs hns, benchmarkingIters, hp, Option.map_some',
    hk]
  rw [readN_full _ _ _ hlen (by omega)]

/-- C1: for every input array of `n` 32-bit keys the array the program reads
back after the 16-pass pipeline (histogram stage, host merge, scatter stage,
swap, for the shifts 0, 2, ..., 30) is the ascending sort of the input: it is
non-decreasing and a permutation of the input. -/
theorem C1_gpu_sort_sorts (s n : Nat) (as keys0 keys1 indexes0 sums0 : List Nat)
    (has : as.length = n) (h32 : ∀ k ∈ as, k < 2 ^ 32)
    (hs : 1 ≤ s) (hns : n + s - 1 < 2 ^ 32) (hsize : 4 * ((n + s - 1) / s + 1) < 2 ^ 32)
    (hk0 : keys0.length = n) (hk1 : keys1.length = n) (hi0 : indexes0.length = n)
    (hs0 : sums0.length = 4 * ((n + s - 1) / s + 1)) :
    ∃ out, gpuSort DIGITS_PER_STEP s n as keys0 keys1 indexes0 sums0 = some out ∧
      out = as.insertionSort (· ≤ ·) ∧ out.Sorted (· ≤ ·) ∧ out.Perm as := by
  refine ⟨as.insertionSort (· ≤ ·), ?_, rfl, List.sorted_insertionSort _ _,
    List.perm_insertionSort _ _⟩
  rw [← lsdFrom_sort as h32]
  exact gpuSort_lsd 2 s n as keys0 keys1 indexes0 sums0 (by decide) (by decide) hs hns hsize has
    hk0 hk1 hi0 hs0

/-- C1 on the five keys 5, 3, 3, 0, 7 in partitions of 2. -/
theorem C1_gpu_sort_sorts_witness :
    ∃ out, gpuSort DIGITS_PER_STEP 2 5 [5, 3, 3, 0, 7] [9, 9, 9, 9, 9] [8, 8, 8, 8, 8]
        [7, 7, 7, 7, 7] [1, 2, 3, 4, 5, 6, 7, 8, 9, 10, 11, 12, 13, 14, 15, 16] = some out ∧
      out = [5, 3, 3, 0, 7].insertionSort (· ≤ ·) ∧ out.Sorted (· ≤ ·) ∧
      out.Perm [5, 3, 3, 0, 7] :=
  C1_gpu_sort_sorts 2 5 [5, 3, 3, 0, 7] [9, 9, 9, 9, 9] [8, 8, 8, 8, 8] [7, 7, 7, 7, 7]
    [1, 2, 3, 4, 5, 6, 7, 8, 9, 10, 11, 12, 13, 14, 15, 16] (by decide) (by decide) (by decide)
    (by decide) (by decide) (by decide) (by decide) (by decide) (by decide)

/-! ## The launch record -/

/-- The merge loop stays in range on every table that reaches to its last
index, whatever the number of digit values. -/
theorem mergeLoop_some (V : Nat) :
    ∀ (k i : Nat) (sums : List Nat), k = 0 ∨ i + k ≤ sums.length →
      ∃ out, mergeLoop V k i sums = some out ∧ out.length = sums.length := by
  intro k
  induction k with
  | zero => intro i sums _; exact ⟨sums, rfl, rfl⟩
  | succ k ih =>
    intro i sums h
    have hlen : i + (k + 1) ≤ sums.length := by omega
    have h1 : i < sums.length := by omega
    have h2 : i - V < sums.length := by omega
    obtain ⟨out, ho, hl⟩ := ih (i + 1) (sums.set i ((sums[i] + sums[i - V]) % 2 ^ 32))
      (Or.inr (by rw [List.length_set]; omega))
    refine ⟨out, ?_, by rw [hl, List.length_set]⟩
    simp only [mergeLoop, List.getElem?_eq_getElem h1, List.getElem?_eq_getElem h2]
    exact ho

/-- A pass succeeds whenever the device table holds at least `sums_size`
entries; it appends its two launches to the record and advances `step`. -/
theorem pass_some (w s n groups : Nat) (st : State)
    (hst : sums_size w groups ≤ st.sums_gpu.length) :
    ∃ st1, pass w s n groups st = some st1 ∧
      sums_size w groups ≤ st1.sums_gpu.length ∧
      st1.step = (st.step + w) % 2 ^ 32 ∧
      ∃ merged, st1.sums_gpu = merged ∧
      st1.calls = st.calls ++ [Call.local_sum st.sums_gpu (initialMask w) st.step n,
        Call.radix merged (initialMask w) st.step n] := by
  set hist := local_sum (VALUES_PER_DIGIT w) s (global_work_size groups s) (st.mem st.as_gpu)
    st.indexes st.sums_gpu (initialMask w) st.step n with hhist
  have htl : hist.2.length = st.sums_gpu.length := by
    rw [hhist, local_sum_table_length]
  have hrl : sums_size w groups ≤ (readN hist.2 st.sums (sums_size w groups)).length := by
    simp only [readN, List.length_append, List.length_take, List.length_drop, htl]
    omega
  obtain ⟨merged, hm, hml⟩ := mergeLoop_some (VALUES_PER_DIGIT w)
    (sums_size w groups - VALUES_PER_DIGIT w) (VALUES_PER_DIGIT w)
    (readN hist.2 st.sums (sums_size w groups)) (by omega)
  have hm2 : hostMerge (VALUES_PER_DIGIT w) (sums_size w groups)
      (readN hist.2 st.sums (sums_size w groups)) = some merged := hm
  have hwl : sums_size w groups ≤ (writeN hist.2 merged (sums_size w groups)).length := by
    simp only [writeN, List.length_append, List.length_take, List.length_drop, htl, hml]
    omega
  have hpass : pass w s n groups st = some
      { st.store st.as_buffer (radix (VALUES_PER_DIGIT w) s (global_work_size groups s)
          (st.mem st.as_gpu) (st.mem st.as_buffer) hist.1
          (writeN hist.2 merged (sums_size w groups)) (initialMask w) st.step n) with
        indexes := hist.1
        sums_gpu := writeN hist.2 merged (sums_size w groups)
        as_gpu := st.as_buffer
        as_buffer := st.as_gpu
        sums := merged
        step := (st.step + w) % 2 ^ 32
        calls := st.calls ++ [Call.local_sum st.sums_gpu (initialMask w) st.step n,
          Call.radix (writeN hist.2 merged (sums_size w groups)) (initialMask w) st.step n] } := by
    simp only [pass, ← hhist, hm2]
  exact ⟨_, hpass, hwl, rfl, _, rfl, rfl⟩

/-- The launches of `k` passes from a state whose `step` is `p * w`: two per
pass, the histogram stage and the scatter stage of pass `p + j` both with the
mask of the host and the shift `(p + j) * w`. -/
theorem passes_calls (w s n groups : Nat) :
    ∀ (k p : Nat) (st : State), sums_size w groups ≤ st.sums_gpu.length → st.step = p * w →
      (p + k) * w < 2 ^ 32 →
      ∃ st1 launches, passes w s n groups k st = some st1 ∧
        sums_size w groups ≤ st1.sums_gpu.length ∧
        st1.calls = st.calls ++ launches ∧ launches.length = 2 * k ∧
        ∀ j, j < k → ∃ table merged,
          launches[2 * j]? = some (Call.local_sum table (initialMask w) ((p + j) * w) n) ∧
          launches[2 * j + 1]? = some (Call.radix merged (initialMask w) ((p + j) * w) n) := by
  intro k
  induction k with
  | zero =>
    intro p st hst _ _
    exact ⟨st, [], rfl, hst, by simp, rfl, fun j hj => by omega⟩
  | succ k ih =>
    intro p st hst hstep hbound
    obtain ⟨st1, hp, hs1, hstep1, merged, -, hcalls1⟩ := pass_some w s n groups st hst
    have hle : (p + 1) * w ≤ (p + (k + 1)) * w := Nat.mul_le_mul_right w (by omega)
    have hstep2 : st1.step = (p + 1) * w := by
      rw [hstep1, hstep, Nat.add_mul, one_mul]
      exact Nat.mod_eq_of_lt (by rw [Nat.add_mul, one_mul] at hle; omega)
    obtain ⟨st2, launches, hp2, hs2, hcalls2, hlen, hent⟩ :=
      ih (p + 1) st1 hs1 hstep2 (by rw [show p + 1 + k = p + (k + 1) by omega]; exact hbound)
    refine ⟨st2, [Call.local_sum st.sums_gpu (initialMask w) st.step n,
      Call.radix merged (initialMask w) st.step n] ++ launches, ?_, hs2, ?_, ?_, ?_⟩
    · rw [passes, hp]; exact hp2
    · rw [hcalls2, hcalls1, List.append_assoc]
    · simp only [List.length_append, List.length_cons, List.length_nil, hlen]; omega
    · intro j hj
      cases j with
      | zero => exact ⟨st.sums_gpu, merged, by simp [hstep], by simp [hstep]⟩
      | succ j =>
        obtain ⟨table, merged2, h1, h2⟩ := hent j (by omega)
        refine ⟨table, merged2, ?_, ?_⟩
        · rw [show 2 * (j + 1) = 2 * j + 2 by omega, show p + (j + 1) = p + 1 + j by omega]
          simpa using h1
        · rw [show 2 * (j + 1) + 1 = 2 * j + 1 + 2 by omega, show p + (j + 1) = p + 1 + j by omega]
          simpa using h2

theorem uploaded_table_length (w n groups : Nat) (as : List Nat) (st : State) :
    sums_size w groups ≤ (uploaded w n groups as st).sums_gpu.length ∧
      (uploaded w n groups as st).step = 0 ∧
      (uploaded w n groups as st).calls = st.calls := by
  refine ⟨?_, rfl, (store_fields st st.as_gpu _).2.2.2⟩
  show sums_size w groups ≤ (writeN st.sums_gpu _ _).length
  simp only [writeN, List.length_append, List.length_take, List.length_drop,
    List.length_replicate]
  omega

/-- One sort from any state, for a digit width from 1 to 31: it ends, and its
launches are two per pass for `ceil(32 / w)` passes, both stages of pass `p`
with the host mask and the shift `p * w`. -/
theorem sortOnce_calls (w s n groups : Nat) (as : List Nat) (st : State)
    (hw1 : 1 ≤ w) (hw2 : w ≤ 31) :
    ∃ st1 launches, sortOnce w s n groups as st = some st1 ∧
      sums_size w groups ≤ st1.sums_gpu.length ∧
      st1.calls = st.calls ++ launches ∧ launches.length = 2 * ((32 + w - 1) / w) ∧
      ∀ p, p < (32 + w - 1) / w → ∃ table merged,
        launches[2 * p]? = some (Call.local_sum table (initialMask w) (p * w) n) ∧
        launches[2 * p + 1]? = some (Call.radix merged (initialMask w) (p * w) n) := by
  obtain ⟨hu1, hu2, hu3⟩ := uploaded_table_length w n groups as st
  have hT := turns_le w hw1
  have hb : (0 + (32 + w - 1) / w) * w < 2 ^ 32 := by
    rw [Nat.zero_add]
    have : (32 + w - 1) / w * w ≤ 32 * 31 := Nat.mul_le_mul hT hw2
    omega
  obtain ⟨st1, launches, hp, hs1, hc, hl, hent⟩ :=
    passes_calls w s n groups ((32 + w - 1) / w) 0 (uploaded w n groups as st) hu1
      (by rw [hu2, Nat.zero_mul]) hb
  refine ⟨st1, launches, ?_, hs1, by rw [hc, hu3], hl, ?_⟩
  · rw [sortOnce_eq_passes w s n groups as st hw1 hw2]; exact hp
  · intro p hp2
    obtain ⟨table, merged, h1, h2⟩ := hent p hp2
    rw [Nat.zero_add] at h1 h2
    exact ⟨table, merged, h1, h2⟩

/-- The benchmark loop from any state: every iteration adds the launches of
one sort. -/
theorem benchLoop_calls (w s n groups : Nat) (as : List Nat) (hw1 : 1 ≤ w) (hw2 : w ≤ 31) :
    ∀ (iters : Nat) (st : State),
      ∃ st1, benchLoop w s n groups as iters st = some st1 ∧
        st1.calls.length = st.calls.length + iters * (2 * ((32 + w - 1) / w)) := by
  intro iters
  induction iters with
  | zero => intro st; exact ⟨st, rfl, by simp⟩
  | succ iters ih =>
    intro st
    obtain ⟨st1, launches, h1, -, h2, h3, -⟩ := sortOnce_calls w s n groups as st hw1 hw2
    obtain ⟨st2, h4, h5⟩ := ih st1
    refine ⟨st2, by rw [benchLoop, h1]; exact h4, ?_⟩
    rw [h5, h2, List.length_append, h3, Nat.add_mul, one_mul]
    omega

/-- The GPU part of the program performs no check of its configuration: with
a partition size of at least 1 it launches both stages of every pass of every
benchmark iteration, for any digit width from 1 to 31 and any number of keys. -/
theorem gpuRun_calls (w s n : Nat) (as keys0 keys1 indexes0 sums0 : List Nat)
    (hw1 : 1 ≤ w) (hw2 : w ≤ 31) (hs : 1 ≤ s) :
    ∃ st1, gpuRun w s n as keys0 keys1 indexes0 sums0 = some st1 ∧
      st1.calls.length = benchmarkingIters * (2 * ((32 + w - 1) / w)) := by
  obtain ⟨st1, h1, h2⟩ := benchLoop_calls w s n
    ((n + s + (2 ^ 32 - 1)) % 2 ^ 32 / s) as hw1 hw2 benchmarkingIters
    (initState keys0 keys1 indexes0 sums0)
  refine ⟨st1, ?_, ?_⟩
  · simp only [gpuRun, groups_count, if_neg (show ¬ s = 0 by omega)]
    exact h1
  · rw [h2]; simp [initState]

/-- C8, as the code has it: the host rejects no configuration before the first
pass.  For a digit width from 1 to 31, dividing 32 or not, and any number of
keys, zero included, a partition size of at least 1 lets the benchmark loop
reach its end with both stages of every pass of every iteration launched
(`benchmarkingIters * 2 * ceil(32 / w)` launches, more than none); with a
partition size of 0 the division in `groups_count` has no result and the GPU
part has none.  Whether the array read back afterwards passes the comparison
of `main_radix.cpp:133-135` is not part of this statement. -/
theorem C8_no_configuration_check (w s n : Nat) (as keys0 keys1 indexes0 sums0 : List Nat)
    (hw1 : 1 ≤ w) (hw2 : w ≤ 31) :
    (s = 0 ∧ groups_count n s = none ∧ gpuRun w s n as keys0 keys1 indexes0 sums0 = none) ∨
    (1 ≤ s ∧ ∃ st1, gpuRun w s n as keys0 keys1 indexes0 sums0 = some st1 ∧
      st1.calls.length = benchmarkingIters * (2 * ((32 + w - 1) / w)) ∧
      0 < st1.calls.length) := by
  rcases Nat.eq_zero_or_pos s with h0 | h0
  · subst h0
    exact Or.inl ⟨rfl, rfl, rfl⟩
  · obtain ⟨st1, h1, h2⟩ := gpuRun_calls w s n as keys0 keys1 indexes0 sums0 hw1 hw2 h0
    refine Or.inr ⟨h0, st1, h1, h2, ?_⟩
    rw [h2]
    have : 0 < (32 + w - 1) / w := (lt_turns_iff w 0 hw1).mpr (by omega)
    exact Nat.mul_pos (by decide) (by omega)

/-- C8 at the digit width 3, which does not divide 32. -/
theorem C8_no_configuration_check_witness :
    ((2 : Nat) = 0 ∧ groups_count 5 2 = none ∧
      gpuRun 3 2 5 [5, 3, 3, 0, 7] [0, 0, 0, 0, 0] [0, 0, 0, 0, 0] [0, 0, 0, 0, 0]
        (List.replicate 32 0) = none) ∨
    (1 ≤ 2 ∧ ∃ st1, gpuRun 3 2 5 [5, 3, 3, 0, 7] [0, 0, 0, 0, 0] [0, 0, 0, 0, 0] [0, 0, 0, 0, 0]
        (List.replicate 32 0) = some st1 ∧
      st1.calls.length = benchmarkingIters * (2 * ((32 + 3 - 1) / 3)) ∧
      0 < st1.calls.length) :=
  C8_no_configuration_check 3 2 5 [5, 3, 3, 0, 7] [0, 0, 0, 0, 0] [0, 0, 0, 0, 0] [0, 0, 0, 0, 0]
    (List.replicate 32 0) (by decide) (by decide)

/-- C8 fails as stated: a digit width of 3 does not divide 32, and an element
count of 0 is a configuration the claim wants rejected before the first pass,
yet in both cases the benchmark loop makes all its launches (220 and 320 of
them) and reaches its end. -/
theorem C8_counterexample :
    (¬ 3 ∣ 32 ∧ ∃ st1, gpuRun 3 2 5 [5, 3, 3, 0, 7] [0, 0, 0, 0, 0] [0, 0, 0, 0, 0]
        [0, 0, 0, 0, 0] (List.replicate 32 0) = some st1 ∧ st1.calls.length = 220) ∧
    (∃ st1, gpuRun DIGITS_PER_STEP 128 0 [] [] [] [] [0, 0, 0, 0] = some st1 ∧
      st1.calls.length = 320) := by
  refine ⟨⟨by decide, ?_⟩, ?_⟩
  · exact gpuRun_calls 3 2 5 _ _ _ _ _ (by decide) (by decide) (by decide)
  · exact gpuRun_calls 2 128 0 _ _ _ _ _ (by decide) (by decide) (by decide)

/-! ## The table handed to the histogram stage -/

/-- The launches of `k` passes from a sized state: the histogram stage is
always handed a table whose row 0 is zero; the first one is handed the table
of the state, every later one the merged table the scatter stage of the pass
before was handed. -/
theorem passes_tables (w s n groups : Nat) (hw : w ≤ 31)
    (hsize : VALUES_PER_DIGIT w * (groups + 1) < 2 ^ 32) :
    ∀ (k p : Nat) (st : State), Sized w n groups st → st.step = p * w →
      (p + k) * w < 2 ^ 32 →
      ∃ st1 launches, passes w s n groups k st = some st1 ∧ Sized w n groups st1 ∧
        st1.calls = st.calls ++ launches ∧ launches.length = 2 * k ∧
        ∀ j, j < k → ∃ table merged,
          launches[2 * j]? = some (Call.local_sum table (initialMask w) ((p + j) * w) n) ∧
          launches[2 * j + 1]? = some (Call.radix merged (initialMask w) ((p + j) * w) n) ∧
          (∀ v, v < VALUES_PER_DIGIT w → table.getD v 0 = 0) ∧
          (j = 0 → table = st.sums_gpu) ∧
          (j + 1 < k → launches[2 * j + 2]?
            = some (Call.local_sum merged (initialMask w) ((p + j + 1) * w) n)) := by
  intro k
  induction k with
  | zero =>
    intro p st hst _ _
    exact ⟨st, [], rfl, hst, by simp, rfl, fun j hj => by omega⟩
  | succ k ih =>
    intro p st hst hstep hbound
    obtain ⟨merged, st1, -, hp, hs1, -, -, -, -, hsg, hstep1, hcalls1⟩ :=
      pass_unfold w s n groups st hw hsize hst
    have hle : (p + 1) * w ≤ (p + (k + 1)) * w := Nat.mul_le_mul_right w (by omega)
    have hstep2 : st1.step = (p + 1) * w := by
      rw [hstep1, hstep, Nat.add_mul, one_mul]
      exact Nat.mod_eq_of_lt (by rw [Nat.add_mul, one_mul] at hle; omega)
    obtain ⟨st2, launches, hp2, hs2, hcalls2, hlen, hent⟩ :=
      ih (p + 1) st1 hs1 hstep2 (by rw [show p + 1 + k = p + (k + 1) by omega]; exact hbound)
    refine ⟨st2, [Call.local_sum st.sums_gpu (initialMask w) st.step n,
      Call.radix merged (initialMask w) st.step n] ++ launches, ?_, hs2, ?_, ?_, ?_⟩
    · rw [passes, hp]; exact hp2
    · rw [hcalls2, hcalls1, List.append_assoc]
    · simp only [List.length_append, List.length_cons, List.length_nil, hlen]; omega
    · intro j hj
      cases j with
      | zero =>
        refine ⟨st.sums_gpu, merged, by simp [hstep], by simp [hstep], hst.2.2.2.2.2.2,
          fun _ => rfl, ?_⟩
        intro hk
        obtain ⟨table, merged2, h1, -, -, h4, -⟩ := hent 0 (by omega)
        rw [h4 rfl, hsg] at h1
        simpa using h1
      | succ j =>
        obtain ⟨table, merged2, h1, h2, h3, -, h5⟩ := hent j (by omega)
        refine ⟨table, merged2, ?_, ?_, h3, fun h => by omega, ?_⟩
        · rw [show 2 * (j + 1) = 2 * j + 2 by omega, show p + (j + 1) = p + 1 + j by omega]
          simpa using h1
        · rw [show 2 * (j + 1) + 1 = 2 * j + 1 + 2 by omega, show p + (j + 1) = p + 1 + j by omega]
          simpa using h2
        · intro hk
          have := h5 (by omega)
          rw [show 2 * (j + 1) + 2 = 2 * j + 2 + 2 by omega,
            show p + (j + 1) + 1 = p + 1 + j + 1 by omega]
          simpa using this

/-- One sort from a state with sized buffers: the first pass is handed the
zeroed table, every pass a table whose row 0 is zero, and every pass after the
first the merged table of the pass before. -/
theorem sortOnce_tables (w s n groups : Nat) (as : List Nat) (st : State)
    (hw1 : 1 ≤ w) (hw2 : w ≤ 31)
    (hsize : VALUES_PER_DIGIT w * (groups + 1) < 2 ^ 32) (has : as.length = n)
    (hne : st.as_gpu ≠ st.as_buffer) (h1 : st.first.length = n) (h2 : st.second.length = n)
    (hi : st.indexes.length = n) (hsg : st.sums_gpu.length = sums_size w groups) :
    ∃ st1 launches, sortOnce w s n groups as st = some st1 ∧
      st1.calls = st.calls ++ launches ∧ launches.length = 2 * ((32 + w - 1) / w) ∧
      launches[0]? = some
        (Call.local_sum (List.replicate (sums_size w groups) 0) (initialMask w) 0 n) ∧
      ∀ p, p < (32 + w - 1) / w → ∃ table merged,
        launches[2 * p]? = some (Call.local_sum table (initialMask w) (p * w) n) ∧
        launches[2 * p + 1]? = some (Call.radix merged (initialMask w) (p * w) n) ∧
        (∀ v, v < VALUES_PER_DIGIT w → table.getD v 0 = 0) ∧
        (p + 1 < (32 + w - 1) / w → launches[2 * p + 2]?
          = some (Call.local_sum merged (initialMask w) ((p + 1) * w) n)) := by
  obtain ⟨hsz, -, hstep, htab, hcalls⟩ := uploaded_sized w n groups as st has hne h1 h2 hi hsg
  have hT := turns_le w hw1
  have hT0 : 0 < (32 + w - 1) / w := (lt_turns_iff w 0 hw1).mpr (by omega)
  have hb : (0 + (32 + w - 1) / w) * w < 2 ^ 32 := by
    rw [Nat.zero_add]
    have : (32 + w - 1) / w * w ≤ 32 * 31 := Nat.mul_le_mul hT hw2
    omega
  obtain ⟨st1, launches, hp, -, hc, hl, hent⟩ :=
    passes_tables w s n groups hw2 hsize ((32 + w - 1) / w) 0
      (uploaded w n groups as st) hsz (by rw [hstep, Nat.zero_mul]) hb
  refine ⟨st1, launches, ?_, by rw [hc, hcalls], hl, ?_, ?_⟩
  · rw [sortOnce_eq_passes w s n groups as st hw1 hw2]; exact hp
  · obtain ⟨table, merged, e1, -, -, e4, -⟩ := hent 0 hT0
    rw [e4 rfl, htab] at e1
    simpa using e1
  · intro p hp2
    obtain ⟨table, merged, e1, e2, e3, -, e5⟩ := hent p hp2
    rw [Nat.zero_add] at e1 e2 e5
    exact ⟨table, merged, e1, e2, e3, e5⟩

/-- C7, as the code has it: the table is zeroed once per sort, before the
first pass.  The first of the 16 passes is handed a table of zeros; every
pass is handed a table whose row 0 (its first `VALUES_PER_DIGIT` entries) is
zero; every pass after the first is handed the merged table of the pass
before, whose other rows the histogram stage overwrites. -/
theorem C7_table_at_pass_start (s n groups : Nat) (as : List Nat) (st : State)
    (hsize : 4 * (groups + 1) < 2 ^ 32) (has : as.length = n)
    (hne : st.as_gpu ≠ st.as_buffer) (h1 : st.first.length = n) (h2 : st.second.length = n)
    (hi : st.indexes.length = n) (hsg : st.sums_gpu.length = 4 * (groups + 1)) :
    ∃ st1 launches, sortOnce DIGITS_PER_STEP s n groups as st = some st1 ∧
      st1.calls = st.calls ++ launches ∧ launches.length = 2 * 16 ∧
      launches[0]? = some
        (Call.local_sum (List.replicate (4 * (groups + 1)) 0) (initialMask DIGITS_PER_STEP) 0 n) ∧
      ∀ p, p < 16 → ∃ table merged,
        launches[2 * p]? = some (Call.local_sum table (initialMask DIGITS_PER_STEP) (p * 2) n) ∧
        launches[2 * p + 1]? = some (Call.radix merged (initialMask DIGITS_PER_STEP) (p * 2) n) ∧
        (∀ v, v < 4 → table.getD v 0 = 0) ∧
        (p + 1 < 16 → launches[2 * p + 2]?
          = some (Call.local_sum merged (initialMask DIGITS_PER_STEP) ((p + 1) * 2) n)) := by
  have hsz : sums_size 2 groups = 4 * (groups + 1) := sums_size_eq 2 groups hsize
  have := sortOnce_tables 2 s n groups as st (by decide) (by decide) hsize has hne h1 h2 hi
    (by rw [hsz]; exact hsg)
  rw [hsz] at this
  exact this

/-- C7 on one key in one partition. -/
theorem C7_table_at_pass_start_witness :
    ∃ st1 launches, sortOnce DIGITS_PER_STEP 1 1 1 [1]
        (initState [0] [0] [0] [0, 0, 0, 0, 0, 0, 0, 0]) = some st1 ∧
      st1.calls = (initState [0] [0] [0] [0, 0, 0, 0, 0, 0, 0, 0]).calls ++ launches ∧
      launches.length = 2 * 16 ∧
      launches[0]? = some
        (Call.local_sum (List.replicate (4 * (1 + 1)) 0) (initialMask DIGITS_PER_STEP) 0 1) ∧
      ∀ p, p < 16 → ∃ table merged,
        launches[2 * p]? = some (Call.local_sum table (initialMask DIGITS_PER_STEP) (p * 2) 1) ∧
        launches[2 * p + 1]? = some (Call.radix merged (initialMask DIGITS_PER_STEP) (p * 2) 1) ∧
        (∀ v, v < 4 → table.getD v 0 = 0) ∧
        (p + 1 < 16 → launches[2 * p + 2]?
          = some (Call.local_sum merged (initialMask DIGITS_PER_STEP) ((p + 1) * 2) 1)) :=
  C7_table_at_pass_start 1 1 1 [1] (initState [0] [0] [0] [0, 0, 0, 0, 0, 0, 0, 0])
    (by decide) (by decide) (by decide) (by decide) (by decide) (by decide) (by decide)

/-- C7 fails as stated: sorting the single key 1, the second pass (shift 2)
hands the histogram stage the merged table of the first pass, whose entry 5
is 1. -/
theorem C7_counterexample :
    (sortOnce DIGITS_PER_STEP 1 1 1 [1] (initState [0] [0] [0] [0, 0, 0, 0, 0, 0, 0, 0])).map
        (fun st => st.calls[2]?)
      = some (some (Call.local_sum [0, 0, 0, 0, 0, 1, 0, 0] 3 2 1)) ∧
    [0, 0, 0, 0, 0, 1, 0, 0] ≠ List.replicate 8 0 := by
  constructor
  · decide
  · decide

/-! ## Double buffering -/

/-- C6: with the two device buffers as the handles `as_gpu` and `as_buffer`,
every pass reads the buffer `as_gpu` designates and writes only the one
`as_buffer` designates; the swap exchanges the handles and copies nothing, so
after the pass `as_gpu` designates the buffer the scatter stage wrote and the
buffer it read is unchanged.  One sort is the 16-fold composition of the pass
on the uploaded state, and the array read back at the end is the 16-fold
composition of the per-pass transformation of the keys applied to the
input. -/
theorem C6_double_buffering (s n : Nat) (as keys0 keys1 indexes0 sums0 : List Nat)
    (has : as.length = n)
    (hs : 1 ≤ s) (hns : n + s - 1 < 2 ^ 32) (hsize : 4 * ((n + s - 1) / s + 1) < 2 ^ 32)
    (hk0 : keys0.length = n) (hk1 : keys1.length = n) (hi0 : indexes0.length = n)
    (hs0 : sums0.length = 4 * ((n + s - 1) / s + 1)) :
    (∀ st, Sized DIGITS_PER_STEP n ((n + s - 1) / s) st → ∃ merged st1,
      hostMerge 4 (4 * ((n + s - 1) / s + 1))
        (local_sum 4 s (global_work_size ((n + s - 1) / s) s) (st.mem st.as_gpu) st.indexes
          st.sums_gpu (initialMask DIGITS_PER_STEP) st.step n).2 = some merged ∧
      pass DIGITS_PER_STEP s n ((n + s - 1) / s) st = some st1 ∧
      st1.as_gpu = st.as_buffer ∧ st1.as_buffer = st.as_gpu ∧
      st1.mem st.as_gpu = st.mem st.as_gpu ∧
      st1.mem st1.as_gpu =
        radix 4 s (global_work_size ((n + s - 1) / s) s) (st.mem st.as_gpu) (st.mem st.as_buffer)
          (local_sum 4 s (global_work_size ((n + s - 1) / s) s) (st.mem st.as_gpu) st.indexes
            st.sums_gpu (initialMask DIGITS_PER_STEP) st.step n).1 merged
          (initialMask DIGITS_PER_STEP) st.step n ∧
      st1.mem st1.as_gpu =
        buckets (digit (initialMask DIGITS_PER_STEP) st.step) (st.mem st.as_gpu) 4) ∧
    (∀ st, sortOnce DIGITS_PER_STEP s n ((n + s - 1) / s) as st
      = passes DIGITS_PER_STEP s n ((n + s - 1) / s) 16
          (uploaded DIGITS_PER_STEP n ((n + s - 1) / s) as st)) ∧
    ∃ stEnd, gpuRun DIGITS_PER_STEP s n as keys0 keys1 indexes0 sums0 = some stEnd ∧
      gpuSort DIGITS_PER_STEP s n as keys0 keys1 indexes0 sums0
        = some (stEnd.mem stEnd.as_gpu) ∧
      stEnd.mem stEnd.as_gpu = lsdFrom DIGITS_PER_STEP 0 16 as := by
  obtain ⟨hlo, hhi⟩ := ceil_div_bounds n s hs
  have hsize2 : VALUES_PER_DIGIT 2 * ((n + s - 1) / s + 1) < 2 ^ 32 := hsize
  refine ⟨?_, ?_, ?_⟩
  · intro st hst
    obtain ⟨merged, st1, hm, hp, -, h1, h2, h3, h4, -, -, -⟩ :=
      pass_unfold 2 s n ((n + s - 1) / s) st (by decide) hsize2 hst
    obtain ⟨st2, hp2, -, -, -, -, hb, -⟩ :=
      pass_buckets 2 s n ((n + s - 1) / s) st (by decide) (by decide) hs (by omega) (by omega)
        hlo hsize2 hst
    have e : st1 = st2 := Option.some.inj (hp.symm.trans hp2)
    subst e
    refine ⟨merged, st1, hm, hp, h1, h2, ?_, h4, hb⟩
    exact (congrArg st1.mem h2).symm.trans h3
  · intro st
    exact sortOnce_eq_passes 2 s n ((n + s - 1) / s) as st (by decide) (by decide)
  · obtain ⟨st1, hp, -, hk⟩ :=
      benchLoop_lsd 2 s n ((n + s - 1) / s) as (by decide) (by decide) hs (by omega) (by omega)
        hlo hsize2 has 9 (initState keys0 keys1 indexes0 sums0) (by simp [initState]) hk0 hk1 hi0
        (by rw [sums_size_eq _ _ hsize2]; exact hs0)
    have hrun : gpuRun DIGITS_PER_STEP s n as keys0 keys1 indexes0 sums0 = some st1 := by
      simp only [gpuRun, groups_count_eq n s hs hns, benchmarkingIters]
      exact hp
    have hlen : (st1.mem st1.as_gpu).length = n := by
      have := (lsdFrom_sorted 2 (by decide) (by decide) 16 0 as (by
        simp only [Nat.zero_mul, Nat.pow_zero, Nat.mod_one]
        exact List.pairwise_of_forall (fun _ _ => le_refl _))).2.length_eq
      rw [hk]
      exact this.trans has
    refine ⟨st1, hrun, ?_, hk⟩
    simp only [gpuSort, hrun, Option.map_some']
    rw [readN_full _ _ _ hlen (by omega)]

/-- C6 on the five keys 5, 3, 3, 0, 7 in partitions of 2. -/
theorem C6_double_buffering_witness :
    (∀ st, Sized DIGITS_PER_STEP 5 ((5 + 2 - 1) / 2) st → ∃ merged st1,
      hostMerge 4 (4 * ((5 + 2 - 1) / 2 + 1))
        (local_sum 4 2 (global_work_size ((5 + 2 - 1) / 2) 2) (st.mem st.as_gpu) st.indexes
          st.sums_gpu (initialMask DIGITS_PER_STEP) st.step 5).2 = some merged ∧
      pass DIGITS_PER_STEP 2 5 ((5 + 2 - 1) / 2) st = some st1 ∧
      st1.as_gpu = st.as_buffer ∧ st1.as_buffer = st.as_gpu ∧
      st1.mem st.as_gpu = st.mem st.as_gpu ∧
      st1.mem st1.as_gpu =
        radix 4 2 (global_work_size ((5 + 2 - 1) / 2) 2) (st.mem st.as_gpu) (st.mem st.as_buffer)
          (local_sum 4 2 (global_work_size ((5 + 2 - 1) / 2) 2) (st.mem st.as_gpu) st.indexes
            st.sums_gpu (initialMask DIGITS_PER_STEP) st.step 5).1 merged
          (initialMask DIGITS_PER_STEP) st.step 5 ∧
      st1.mem st1.as_gpu =
        buckets (digit (initialMask DIGITS_PER_STEP) st.step) (st.mem st.as_gpu) 4) ∧
    (∀ st, sortOnce DIGITS_PER_STEP 2 5 ((5 + 2 - 1) / 2) [5, 3, 3, 0, 7] st
      = passes DIGITS_PER_STEP 2 5 ((5 + 2 - 1) / 2) 16
          (uploaded DIGITS_PER_STEP 5 ((5 + 2 - 1) / 2) [5, 3, 3, 0, 7] st)) ∧
    ∃ stEnd, gpuRun DIGITS_PER_STEP 2 5 [5, 3, 3, 0, 7] [9, 9, 9, 9, 9] [8, 8, 8, 8, 8]
        [7, 7, 7, 7, 7] (List.replicate 16 6) = some stEnd ∧
      gpuSort DIGITS_PER_STEP 2 5 [5, 3, 3, 0, 7] [9, 9, 9, 9, 9] [8, 8, 8, 8, 8]
        [7, 7, 7, 7, 7] (List.replicate 16 6) = some (stEnd.mem stEnd.as_gpu) ∧
      stEnd.mem stEnd.as_gpu = lsdFrom DIGITS_PER_STEP 0 16 [5, 3, 3, 0, 7] :=
  C6_double_buffering 2 5 [5, 3, 3, 0, 7] [9, 9, 9, 9, 9] [8, 8, 8, 8, 8] [7, 7, 7, 7, 7]
    (List.replicate 16 6) (by decide) (by decide) (by decide) (by decide) (by decide)
    (by decide) (by decide) (by decide)

/-! ## What the host merge leaves in the table -/

theorem columnSum_shift (V v p : Nat) (sums : List Nat) :
    ((List.range (p + 1)).map fun q => sums.getD (V * q + v) 0).sum
      = sums.getD v 0 + ((List.range p).map fun q => partitionCount V sums q v).sum := by
  rw [List.range_succ_eq_map, List.map_cons, List.sum_cons, List.map_map]
  simp [partitionCount, Function.comp_def]

theorem columnSum_le_total (V rows v p : Nat) (sums : List Nat)
    (hlen : sums.length = V * (rows + 1)) (hv : v < V) (hp : p ≤ rows) :
    ((List.range (p + 1)).map fun q => sums.getD (V * q + v) 0).sum ≤ sums.sum := by
  rw [list_sum_range_map, list_sum_eq_range, hlen, sum_range_table]
  have h1 : ∑ q in Finset.range (p + 1), sums.getD (V * q + v) 0
      ≤ ∑ q in Finset.range (rows + 1), sums.getD (V * q + v) 0 :=
    Finset.sum_le_sum_of_subset (Finset.range_mono (by omega))
  have h2 := Finset.single_le_sum
    (f := fun v => ∑ q in Finset.range (rows + 1), sums.getD (V * q + v) 0)
    (fun _ _ => Nat.zero_le _) (Finset.mem_range.mpr hv)
  simp only at h2
  omega

/-- On a table whose row 0 is zero and whose entries sum to less than `2 ^ 32`
the host merge leaves, for digit value `v` and partition `p`, the counts of
`v` in the partitions before `p`, and nothing else. -/
theorem hostMerge_exclusive (V groups : Nat) (hV : 0 < V) (sums : List Nat)
    (hlen : sums.length = V * (groups + 1)) (hrow0 : ∀ v, v < V → sums.getD v 0 = 0)
    (hsum : sums.sum < 2 ^ 32) :
    ∃ merged, hostMerge V sums.length sums = some merged ∧
      ∀ p v, p ≤ groups → v < V →
        merged.getD (V * p + v) 0 = ((List.range p).map fun q => partitionCount V sums q v).sum := by
  have h32 : ∀ x ∈ sums, x < 2 ^ 32 := fun x hx => by
    have := le_list_sum sums x hx; omega
  obtain ⟨merged, hm, -, -, hcol⟩ := hostMerge_spec V groups hV sums hlen h32
  refine ⟨merged, hm, ?_⟩
  intro p v hp hv
  have hle := columnSum_le_total V groups v p sums hlen hv hp
  rw [hcol p v hp hv, Nat.mod_eq_of_lt (by omega), columnSum_shift, hrow0 v hv, Nat.zero_add]

/-- C2, as the code has it: after the host merge the entry of digit value `v`
and partition `p` is the sum of the counts of `v` in the partitions `0..p-1`
(for `p = groups_count` the total of `v`), without the base offset of `v`.
The base offset is the sum of the last row over the smaller digit values,
which the scatter stage adds; entry and base offset together are the entry
the specification describes. -/
theorem C2_merge_running_totals (groups : Nat) (sums : List Nat)
    (hlen : sums.length = 4 * (groups + 1)) (hrow0 : ∀ v, v < 4 → sums.getD v 0 = 0)
    (hsum : sums.sum < 2 ^ 32) :
    ∃ merged, hostMerge (VALUES_PER_DIGIT DIGITS_PER_STEP) sums.length sums = some merged ∧
      ∀ p v, p ≤ groups → v < 4 →
        merged.getD (4 * p + v) 0 = ((List.range p).map fun q => partitionCount 4 sums q v).sum ∧
        baseOffset 4 groups merged v + merged.getD (4 * p + v) 0
          = specMergedEntry (partitionCount 4 sums) groups p v := by
  obtain ⟨merged, hm, hent⟩ := hostMerge_exclusive 4 groups (by decide) sums hlen hrow0 hsum
  refine ⟨merged, hm, ?_⟩
  intro p v hp hv
  refine ⟨hent p v hp hv, ?_⟩
  have hbase : baseOffset 4 groups merged v
      = ((List.range v).map fun u =>
          ((List.range groups).map fun q => partitionCount 4 sums q u).sum).sum := by
    rw [baseOffset]
    congr 1
    apply List.map_congr_left
    intro u hu
    rw [Nat.mul_comm groups 4, hent groups u (le_refl _) (by have := List.mem_range.mp hu; omega)]
  rw [hbase, hent p v hp hv, specMergedEntry]
  omega

/-- C2 on the table of the keys with digits 0, 1, 1 in one partition. -/
theorem C2_merge_running_totals_witness :
    ∃ merged, hostMerge (VALUES_PER_DIGIT DIGITS_PER_STEP) [0, 0, 0, 0, 1, 2, 0, 0].length
        [0, 0, 0, 0, 1, 2, 0, 0] = some merged ∧
      ∀ p v, p ≤ 1 → v < 4 →
        merged.getD (4 * p + v) 0
          = ((List.range p).map fun q => partitionCount 4 [0, 0, 0, 0, 1, 2, 0, 0] q v).sum ∧
        baseOffset 4 1 merged v + merged.getD (4 * p + v) 0
          = specMergedEntry (partitionCount 4 [0, 0, 0, 0, 1, 2, 0, 0]) 1 p v :=
  C2_merge_running_totals 1 [0, 0, 0, 0, 1, 2, 0, 0] (by decide) (by decide) (by decide)

/-- C2 fails as stated: the keys 0, 1, 1 in one partition give the table
`[0,0,0,0, 1,2,0,0]`; the claim puts `0 + 1 = 1` in the entry of digit value 1
and partition 0 (no partition before, one key with the smaller digit 0), but
after the host merge row 0 holds 0 there and row 1 holds 2. -/
theorem C2_counterexample :
    (local_sum 4 3 3 [0, 1, 1] [0, 0, 0] [0, 0, 0, 0, 0, 0, 0, 0] 3 0 3).2
      = [0, 0, 0, 0, 1, 2, 0, 0] ∧
    specMergedEntry (partitionCount 4 [0, 0, 0, 0, 1, 2, 0, 0]) 1 0 1 = 1 ∧
    ∃ merged, hostMerge (VALUES_PER_DIGIT DIGITS_PER_STEP) 8 [0, 0, 0, 0, 1, 2, 0, 0]
        = some merged ∧
      merged.getD (4 * 0 + 1) 0 = 0 ∧ merged.getD (4 * 1 + 1) 0 = 2 ∧
      merged.getD (4 * 0 + 1) 0
        ≠ specMergedEntry (partitionCount 4 [0, 0, 0, 0, 1, 2, 0, 0]) 1 0 1 ∧
      merged.getD (4 * 1 + 1) 0
        ≠ specMergedEntry (partitionCount 4 [0, 0, 0, 0, 1, 2, 0, 0]) 1 0 1 := by
  refine ⟨by decide, by decide, [0, 0, 0, 0, 1, 2, 0, 0], by decide, by decide, by decide,
    by decide, by decide⟩

end RadixSort
